import Mathlib

/-!
Verification development for the `fox-lang` lexical scanner
(`src/lexer.rs`, error types from `src/errors.rs`).

The scanner is embedded shallowly: the Rust `Lexer` struct becomes the
`Lexer.LexState` structure, and each method becomes a Lean function on
that state.  The Rust field `current` counts *characters* (it is bumped
by 1 in `Lexer::advance` for every `char` pulled from the iterator), so
positions in this model are character offsets, exactly as in the code.
Byte offsets of the UTF-8 encoding are modelled separately (`utf8Len`,
`utf8ByteIdx`, `isCharBoundary`) in order to reason about the byte-based
string slicing (`&self.source[a..b]`) that the Rust code performs with
those character-counted indices.

The unbounded scanning loops are modelled with explicit fuel; a fuel of
`input length + 2` is proved sufficient (`tokensFuel_stable`), which is
also the termination bound stated in the specification.
-/

/-- Restriction of `char::is_whitespace` (the Unicode `White_Space`
property) to its full 25-character table. -/
def is_whitespace (c : Char) : Bool :=
  ([0x9, 0xA, 0xB, 0xC, 0xD, 0x20, 0x85, 0xA0, 0x1680,
    0x2000, 0x2001, 0x2002, 0x2003, 0x2004, 0x2005, 0x2006, 0x2007,
    0x2008, 0x2009, 0x200A, 0x2028, 0x2029, 0x202F, 0x205F, 0x3000] :
    List Nat).contains c.toNat

/-- Model of `char::is_numeric` (Unicode general category `N`).  The full
Unicode table is out of scope; this covers the ASCII digits together with
the Arabic-Indic digits U+0660..U+0669, which are the only non-ASCII
numeric characters exercised by the inputs considered here. -/
def is_numeric (c : Char) : Bool :=
  c.isDigit || (0x660 ≤ c.toNat && c.toNat ≤ 0x669)

/-- Model of `char::is_alphabetic` (the Unicode `Alphabetic` property).
Covers ASCII letters together with the Latin-1 letters, the only
non-ASCII alphabetic characters exercised by the inputs considered
here. -/
def is_alphabetic (c : Char) : Bool :=
  c.isAlpha || (0xC0 ≤ c.toNat && c.toNat ≤ 0xFF &&
    c.toNat ≠ 0xD7 && c.toNat ≠ 0xF7)

/-- `char::is_alphanumeric`: alphabetic or numeric. -/
def is_alphanumeric (c : Char) : Bool :=
  is_alphabetic c || is_numeric c

/-- Number of bytes of the UTF-8 encoding of a character. -/
def utf8Len (c : Char) : Nat :=
  if c.toNat < 0x80 then 1
  else if c.toNat < 0x800 then 2
  else if c.toNat < 0x10000 then 3
  else 4

/-- Byte offset of the `i`-th character of `s` in the UTF-8 encoding of
`s`. -/
def utf8ByteIdx (s : List Char) (i : Nat) : Nat :=
  ((s.take i).map utf8Len).sum

/-- Whether byte offset `b` is a character boundary of the UTF-8
encoding of `s`.  Rust's `str` slicing panics when an index is not a
character boundary. -/
def isCharBoundary (s : List Char) (b : Nat) : Bool :=
  (List.range (s.length + 1)).any (fun i => utf8ByteIdx s i == b)

/-- The character index whose UTF-8 byte offset in `s` is `b`, when `b`
is a character boundary. -/
def charIdxOfByte (s : List Char) (b : Nat) : Option Nat :=
  (List.range (s.length + 1)).find? (fun i => utf8ByteIdx s i == b)

/-- Rust's byte-indexed slice `s[a..b]`: the characters whose UTF-8
encoding occupies the byte range `[a, b)`, or `none` — a panic — when
`a` or `b` is not a character boundary.  The lexer computes `a` and `b`
from `current`, which counts characters, so the two disagree as soon as
a multi-byte character precedes the slice. -/
def byteSlice (s : List Char) (a b : Nat) : Option (List Char) :=
  match charIdxOfByte s a, charIdxOfByte s b with
  | some i, some j => some ((s.take j).drop i)
  | _, _ => none

/-- `Keyword` from `src/lexer.rs`. -/
inductive Keyword where
  | Let | Fn | Return | Class | Super | This | And | Or
  | If | Else | True | False | For | While | Nil | Print
deriving DecidableEq, Repr

namespace Keyword

/-- `Keyword::lexeme`. -/
def lexeme : Keyword → List Char
  | .Let => ['l', 'e', 't']
  | .Fn => ['f', 'n']
  | .Return => ['r', 'e', 't', 'u', 'r', 'n']
  | .Class => ['c', 'l', 'a', 's', 's']
  | .Super => ['s', 'u', 'p', 'e', 'r']
  | .This => ['t', 'h', 'i', 's']
  | .And => ['a', 'n', 'd']
  | .Or => ['o', 'r']
  | .If => ['i', 'f']
  | .Else => ['e', 'l', 's', 'e']
  | .True => ['t', 'r', 'u', 'e']
  | .False => ['f', 'a', 'l', 's', 'e']
  | .For => ['f', 'o', 'r']
  | .While => ['w', 'h', 'i', 'l', 'e']
  | .Nil => ['n', 'i', 'l']
  | .Print => ['p', 'r', 'i', 'n', 't']

/-- `<Keyword as FromStr>::from_str` (a Rust `match` on string equality,
modelled as an equality chain); the `Err(fmt::Error)` case is modelled
as `none`. -/
def from_str (s : List Char) : Option Keyword :=
  if s = ['l', 'e', 't'] then some .Let
  else if s = ['f', 'n'] then some .Fn
  else if s = ['r', 'e', 't', 'u', 'r', 'n'] then some .Return
  else if s = ['c', 'l', 'a', 's', 's'] then some .Class
  else if s = ['s', 'u', 'p', 'e', 'r'] then some .Super
  else if s = ['t', 'h', 'i', 's'] then some .This
  else if s = ['a', 'n', 'd'] then some .And
  else if s = ['o', 'r'] then some .Or
  else if s = ['i', 'f'] then some .If
  else if s = ['e', 'l', 's', 'e'] then some .Else
  else if s = ['t', 'r', 'u', 'e'] then some .True
  else if s = ['f', 'a', 'l', 's', 'e'] then some .False
  else if s = ['f', 'o', 'r'] then some .For
  else if s = ['w', 'h', 'i', 'l', 'e'] then some .While
  else if s = ['n', 'i', 'l'] then some .Nil
  else if s = ['p', 'r', 'i', 'n', 't'] then some .Print
  else none

end Keyword

/-- Exact rational value of a decimal literal `digits` or
`digits.digits`.  This models the value produced by
`literal.parse::<f64>().unwrap()` in `Lexer::number`: for the ASCII
lexemes produced by number scanning the parse succeeds and the stored
`f64` is the rounding of this exact value (the claims considered here
compare literals at which the printed `f64` and the literal agree). -/
def decimalValue (l : List Char) : ℚ :=
  let intPart := l.takeWhile (fun c => c != '.')
  let fracPart := (l.dropWhile (fun c => c != '.')).drop 1
  let digits : List Char → Nat :=
    fun ds => ds.foldl (fun a c => 10 * a + (c.toNat - '0'.toNat)) 0
  (digits intPart : ℚ) + (digits fracPart : ℚ) / ((10 : ℚ) ^ fracPart.length)

/-- `TokenType` from `src/lexer.rs`.  `Number` carries the exact value
modelled by `decimalValue`; `Identifier` and `String` carry the
character slice of the source. -/
inductive TokenType where
  | LeftParen | RightParen | LeftBrace | RightBrace
  | Comma | Semicolon | Dot | Minus | Plus | Slash | Star
  | Bang | BangEq | Equal | EqualEq
  | Greater | GreaterEq | Less | LessEq
  | Identifier (ident : List Char)
  | String (lit : List Char)
  | Number (num : ℚ)
  | Keyword (kw : Keyword)
  | Comment
  | Eof
deriving DecidableEq, Repr

/-- `Position` from `src/lexer.rs`; the Rust field `end` is named
`endPos` here (`end` is reserved in Lean). -/
structure Position where
  line : Nat
  start : Nat
  endPos : Nat
deriving DecidableEq, Repr

/-- `Token` from `src/lexer.rs`. -/
structure Token where
  ty : TokenType
  position : Position
deriving DecidableEq, Repr

/-- `SyntaxError` from `src/errors.rs`.  `src` models the
`NamedSource::new("", self.source.to_string())` payload (the source
text); spans are `(offset, length)` pairs as in `miette::SourceSpan`. -/
inductive SyntaxError where
  | UnexpectedCharacter (src : List Char) (span : Nat × Nat) (char : Char)
  | UnterminatedString (src : List Char) (leading_quote : Nat × Nat)
  | UnterminatedBlockComment (src : List Char) (comment_start : Nat × Nat)
deriving DecidableEq, Repr

deriving instance DecidableEq for Except

namespace Lexer

/-- The `Lexer` struct: `source` is the buffer, `pos` is the Rust field
`current` (a character count: `advance` bumps it by 1 per character),
`line` and `at_eof` as in the source.  The `iter : MultiPeek<Chars>`
field always holds the characters of `source` not yet consumed, so it is
represented by `source.drop pos` (see `rem`). -/
structure LexState where
  source : List Char
  pos : Nat
  line : Nat
  at_eof : Bool
deriving DecidableEq, Repr

/-- The characters not yet consumed (the contents of the Rust `iter`
field). -/
def rem (st : LexState) : List Char := st.source.drop st.pos

/-- `Lexer::new`. -/
def init (source : List Char) : LexState :=
  { source := source, pos := 0, line := 1, at_eof := false }

/-- `Lexer::advance`: consume one character, bumping `current` by 1 and
`line` on a newline. -/
def advance (st : LexState) : Option Char × LexState :=
  match rem st with
  | [] => (none, st)
  | c :: _ =>
    (some c,
      { st with
        pos := st.pos + 1
        line := if c = '\n' then st.line + 1 else st.line })

/-- Length of the prefix of `l` on which `p` holds: the count returned
by `Lexer::advance_while` when the peek cursor is aligned. -/
def countWhile (p : Char → Bool) : List Char → Nat
  | [] => 0
  | c :: rest => if p c then countWhile p rest + 1 else 0

/-- Advance the cursor over the next `n` characters, bumping `line` once
per newline consumed: the state effect of a loop of `n` calls to
`Lexer::advance`. -/
def advanceBy (st : LexState) (n : Nat) : LexState :=
  { st with
    pos := st.pos + n
    line := st.line + ((rem st).take n).count '\n' }

/-- `Lexer::advance_while` (entered with an aligned peek cursor, which
is the case at every call site except the line-comment one, see
`scan_token`): consumes the longest prefix satisfying `p` and returns
its length. -/
def advance_while (p : Char → Bool) (st : LexState) : Nat × LexState :=
  let n := countWhile p (rem st)
  (n, advanceBy st n)

/-- The loop of `Lexer::block_comment` on the remaining characters:
returns `(characters consumed, final nesting count)`.  Each iteration
inspects up to two characters: `/*` bumps the count and consumes both,
`*/` drops the count and consumes both, anything else is consumed
singly; the loop stops when the count is 0 or input is exhausted. -/
def bcSteps : Nat → List Char → Nat × Nat
  | count, [] => (0, count)
  | count, '/' :: '*' :: rest2 =>
    if count = 0 then (0, count)
    else
      let r := bcSteps (count + 1) rest2
      (r.1 + 2, r.2)
  | count, '*' :: '/' :: rest2 =>
    if count = 0 then (0, count)
    else
      let r := bcSteps (count - 1) rest2
      (r.1 + 2, r.2)
  | count, _ :: rest =>
    if count = 0 then (0, count)
    else
      let r := bcSteps count rest
      (r.1 + 1, r.2)

/-- `Lexer::block_comment`, called with the opening `/*` already
consumed and a nesting count of 1; `start` is the offset of the opening
`/`.  Fails with `UnterminatedBlockComment` spanning the outermost `/*`
(2 characters at `start`) when input runs out with a positive count. -/
def block_comment (start : Nat) (st : LexState) :
    Except SyntaxError TokenType × LexState :=
  let r := bcSteps 1 (rem st)
  let st' := advanceBy st r.1
  if r.2 > 0 then
    (.error (.UnterminatedBlockComment st.source (start, 2)), st')
  else
    (.ok .Comment, st')

/-- `Lexer::string`, called with the opening quote already consumed;
`start` is the offset of the opening quote.  Consumes up to the closing
quote; the payload is the character slice strictly between the quotes
(`self.source[start+1..start+1+len]` in the code, with character-counted
indices). -/
def string (start : Nat) (st : LexState) :
    Except SyntaxError TokenType × LexState :=
  let r := advance_while (fun ch => ch != '"') st
  match advance r.2 with
  | (none, st2) => (.error (.UnterminatedString st.source (start, 1)), st2)
  | (some _, st2) =>
    (.ok (.String ((st2.source.drop (start + 1)).take r.1)), st2)

/-- `Lexer::number`, called with the first digit already consumed;
`start` is that digit's offset.  Consumes a digit run, then `.` and a
further digit run only if the character after the `.` is a digit; the
lexeme is `self.source[start..=start+len]` (inclusive end). -/
def number (start : Nat) (st : LexState) : TokenType × LexState :=
  let r1 := advance_while is_numeric st
  let step :=
    match rem r1.2 with
    | '.' :: rest =>
      if (rest.head?.map is_numeric).getD false then
        let st2 := (advance r1.2).2
        let r2 := advance_while is_numeric st2
        (r1.1 + 1 + r2.1, r2.2)
      else (r1.1, r1.2)
    | _ => (r1.1, r1.2)
  (.Number (decimalValue ((step.2.source.drop start).take (step.1 + 1))),
    step.2)

/-- `Lexer::identifier`, called with the first alphabetic character
already consumed at offset `start`.  Consumes alphanumerics and
underscores; the lexeme `self.source[start..=start+len]` is classified
through `Keyword::from_str`. -/
def identifier (start : Nat) (st : LexState) : TokenType × LexState :=
  let r := advance_while (fun ch => is_alphanumeric ch || ch == '_') st
  let literal := (r.2.source.drop start).take (r.1 + 1)
  match Keyword.from_str literal with
  | some kw => (.Keyword kw, r.2)
  | none => (.Identifier literal, r.2)

/-- The two-character-operator arms of `scan_token` (`!`, `=`, `>`,
`<`): peek for `=`, consuming it for the two-character variant. -/
def twoCharOp (two one : TokenType) (st : LexState) : TokenType × LexState :=
  match rem st with
  | '=' :: _ => (two, (advance st).2)
  | _ => (one, st)

/-- The line-comment arm of `scan_token`, entered after the first `/`
has been consumed, with `rem st` starting at the second `/` and the
`MultiPeek` cursor one character ahead (the `peek` that recognised the
second `/` was not reset).  Consequently the first iteration of
`advance_while(|ch| ch != '\n')` tests the character *after* the second
`/` while consuming the second `/` itself; afterwards the cursor is
realigned by `advance`.  Net effect: if the character after the second
`/` is a newline (or input ends there), only the second `/` is consumed
(the trailing `if peek().is_some() { advance() }` consumes it) and the
newline is left for the next call; otherwise the second `/`, the run of
non-newline characters, and the terminating newline (if any) are all
consumed. -/
def lineComment (st : LexState) : LexState :=
  let t := (rem st).tail
  if t.head? = some '\n' ∨ t = [] then
    advanceBy st 1
  else
    let body := countWhile (fun ch => ch != '\n') t
    advanceBy st (1 + body + (if body < t.length then 1 else 0))

/-- The dispatch `match` of `Lexer::scan_token`, applied to the first
non-whitespace character `c` (already consumed); `start` is `c`'s
offset and `st`'s cursor is just past `c`. -/
def scanDispatch (c : Char) (start : Nat) (st : LexState) :
    Except SyntaxError TokenType × LexState :=
  match c with
  | '(' => (.ok .LeftParen, st)
  | ')' => (.ok .RightParen, st)
  | '{' => (.ok .LeftBrace, st)
  | '}' => (.ok .RightBrace, st)
  | ',' => (.ok .Comma, st)
  | ';' => (.ok .Semicolon, st)
  | '.' => (.ok .Dot, st)
  | '-' => (.ok .Minus, st)
  | '+' => (.ok .Plus, st)
  | '*' => (.ok .Star, st)
  | '/' =>
    match rem st with
    | '/' :: _ => (.ok .Comment, lineComment st)
    | '*' :: _ => block_comment start (advance st).2
    | _ => (.ok .Slash, st)
  | '!' =>
    let r := twoCharOp .BangEq .Bang st
    (.ok r.1, r.2)
  | '=' =>
    let r := twoCharOp .EqualEq .Equal st
    (.ok r.1, r.2)
  | '>' =>
    let r := twoCharOp .GreaterEq .Greater st
    (.ok r.1, r.2)
  | '<' =>
    let r := twoCharOp .LessEq .Less st
    (.ok r.1, r.2)
  | '"' => string start st
  | ch =>
    if is_numeric ch then
      let r := number start st
      (.ok r.1, r.2)
    else if is_alphabetic ch then
      let r := identifier start st
      (.ok r.1, r.2)
    else (.error (.UnexpectedCharacter st.source (start, 1) ch), st)

/-- `Lexer::scan_token`: skip whitespace, dispatch on the next
character; on successful dispatch the token's position is
`{line: line-after-consumption, start: offset-before-dispatch,
end: offset-after-consumption}`.  When input is exhausted, the first
call emits the single `Eof` token (setting `at_eof`) and later calls
return `none`. -/
def scan_token (st : LexState) :
    Option (Except SyntaxError Token) × LexState :=
  let st0 := (advance_while is_whitespace st).2
  let start := st0.pos
  match advance st0 with
  | (none, st1) =>
    if st1.at_eof then (none, st1)
    else
      (some (.ok
          { ty := .Eof
            position := { line := st1.line, start := st1.pos, endPos := st1.pos } }),
        { st1 with at_eof := true })
  | (some c, st1) =>
    match scanDispatch c start st1 with
    | (.ok ty, st2) =>
      (some (.ok
          { ty := ty
            position := { line := st2.line, start := start, endPos := st2.pos } }),
        st2)
    | (.error e, st2) => (some (.error e), st2)

/-- Repeatedly pull `scan_token`, collecting the items, with explicit
fuel bounding the number of pulls. -/
def tokensFuel : Nat → LexState → List (Except SyntaxError Token)
  | 0, _ => []
  | fuel + 1, st =>
    match scan_token st with
    | (none, _) => []
    | (some r, st') => r :: tokensFuel fuel st'

/-- Fuel sufficient to exhaust the scanner from `st` (proved by
`tokensFuel_stable`). -/
def scanBound (st : LexState) : Nat :=
  (st.source.length - st.pos) + 2

/-- The full `scan_token` item sequence of a scanner state. -/
def tokens (st : LexState) : List (Except SyntaxError Token) :=
  tokensFuel (scanBound st) st

/-- Whether an item is a successfully scanned `Comment` token (the
items `<Lexer as Iterator>::next` filters out). -/
def isCommentItem : Except SyntaxError Token → Bool
  | .ok t => match t.ty with | .Comment => true | _ => false
  | .error _ => false

/-- The loop of `<Lexer as Iterator>::next` iterated to exhaustion:
pulls `scan_token`, drops `Ok` comment tokens, keeps everything else,
with explicit fuel bounding the number of pulls. -/
def itemsFuel : Nat → LexState → List (Except SyntaxError Token)
  | 0, _ => []
  | fuel + 1, st =>
    match scan_token st with
    | (none, _) => []
    | (some r, st') =>
      if isCommentItem r then itemsFuel fuel st'
      else r :: itemsFuel fuel st'

/-- The externally observable item sequence of the `Iterator`
implementation, from a scanner state. -/
def items (st : LexState) : List (Except SyntaxError Token) :=
  itemsFuel (scanBound st) st

/-- The externally observable item sequence of `Lexer::new(source)`
consumed to exhaustion. -/
def lexer (source : List Char) : List (Except SyntaxError Token) :=
  items (init source)

/-! ### Basic state lemmas -/

@[simp] theorem advanceBy_source (st : LexState) (n : Nat) :
    (advanceBy st n).source = st.source := rfl

@[simp] theorem advanceBy_at_eof (st : LexState) (n : Nat) :
    (advanceBy st n).at_eof = st.at_eof := rfl

@[simp] theorem advanceBy_pos (st : LexState) (n : Nat) :
    (advanceBy st n).pos = st.pos + n := rfl

theorem advanceBy_zero (st : LexState) : advanceBy st 0 = st := by
  simp [advanceBy]

theorem rem_advanceBy (st : LexState) (n : Nat) :
    rem (advanceBy st n) = (rem st).drop n := by
  simp [rem, advanceBy, List.drop_drop, Nat.add_comm]

theorem advance_of_rem_nil {st : LexState} (h : rem st = []) :
    advance st = (none, st) := by
  simp [advance, h]

theorem advance_of_rem_cons {st : LexState} {c : Char} {r : List Char}
    (h : rem st = c :: r) :
    advance st =
      (some c,
        { st with
          pos := st.pos + 1
          line := if c = '\n' then st.line + 1 else st.line }) := by
  simp [advance, h]

theorem advance_state (st : LexState) :
    (advance st).2.source = st.source ∧ (advance st).2.at_eof = st.at_eof ∧
      st.pos ≤ (advance st).2.pos := by
  cases h : rem st with
  | nil => simp [advance_of_rem_nil h]
  | cons c r => simp [advance_of_rem_cons h]

theorem rem_advance (st : LexState) : rem (advance st).2 = (rem st).tail := by
  cases h : rem st with
  | nil => simp [advance_of_rem_nil h, h]
  | cons c r =>
    simp only [advance_of_rem_cons h]
    have : rem { st with
        pos := st.pos + 1
        line := if c = '\n' then st.line + 1 else st.line } =
        (rem st).drop 1 := by
      simp [rem, List.drop_drop, Nat.add_comm]
    simp [this, h]

theorem rem_nonempty_pos_lt {st : LexState} {c : Char} {r : List Char}
    (h : rem st = c :: r) : st.pos < st.source.length := by
  by_contra hc
  have : rem st = [] := by
    unfold rem
    exact List.drop_eq_nil_of_le (by omega)
  simp [this] at h

/-! ### State preservation through the sub-scanners -/

theorem advance_while_state (p : Char → Bool) (st : LexState) :
    (advance_while p st).2.source = st.source ∧
      (advance_while p st).2.at_eof = st.at_eof ∧
      st.pos ≤ (advance_while p st).2.pos := by
  simp [advance_while]

theorem string_snd (start : Nat) (st : LexState) :
    (string start st).2 =
      (advance (advance_while (fun ch => ch != '"') st).2).2 := by
  unfold string
  dsimp only
  split
  · rename_i st2 heq
    exact (congrArg Prod.snd heq).symm
  · rename_i a st2 heq
    exact (congrArg Prod.snd heq).symm

theorem string_state (start : Nat) (st : LexState) :
    (string start st).2.source = st.source ∧
      (string start st).2.at_eof = st.at_eof ∧
      st.pos ≤ (string start st).2.pos := by
  rw [string_snd]
  obtain ⟨hs, he, hp⟩ := advance_while_state (fun ch => ch != '"') st
  obtain ⟨hs2, he2, hp2⟩ := advance_state (advance_while (fun ch => ch != '"') st).2
  exact ⟨by rw [hs2, hs], by rw [he2, he], le_trans hp hp2⟩

theorem number_state (start : Nat) (st : LexState) :
    (number start st).2.source = st.source ∧
      (number start st).2.at_eof = st.at_eof ∧
      st.pos ≤ (number start st).2.pos := by
  obtain ⟨hs, he, hp⟩ := advance_while_state is_numeric st
  obtain ⟨hs2, he2, hp2⟩ := advance_state (advance_while is_numeric st).2
  obtain ⟨hs3, he3, hp3⟩ :=
    advance_while_state is_numeric (advance (advance_while is_numeric st).2).2
  unfold number
  dsimp only
  split
  · split
    · constructor
      · simp_all
      · constructor
        · simp_all
        · simp_all
          omega
    · simp_all
  · simp_all

theorem identifier_state (start : Nat) (st : LexState) :
    (identifier start st).2.source = st.source ∧
      (identifier start st).2.at_eof = st.at_eof ∧
      st.pos ≤ (identifier start st).2.pos := by
  unfold identifier
  obtain ⟨hs, he, hp⟩ :=
    advance_while_state (fun ch => is_alphanumeric ch || ch == '_') st
  cases h : Keyword.from_str
      ((((advance_while (fun ch => is_alphanumeric ch || ch == '_') st).2).source.drop
        start).take ((advance_while (fun ch => is_alphanumeric ch || ch == '_') st).1 + 1)) <;>
    simp_all

theorem twoCharOp_state (two one : TokenType) (st : LexState) :
    (twoCharOp two one st).2.source = st.source ∧
      (twoCharOp two one st).2.at_eof = st.at_eof ∧
      st.pos ≤ (twoCharOp two one st).2.pos := by
  obtain ⟨hs, he, hp⟩ := advance_state st
  unfold twoCharOp
  split <;> simp_all

theorem lineComment_state (st : LexState) :
    (lineComment st).source = st.source ∧
      (lineComment st).at_eof = st.at_eof ∧
      st.pos ≤ (lineComment st).pos := by
  unfold lineComment
  dsimp only
  split <;>
    exact ⟨advanceBy_source st _, advanceBy_at_eof st _, by simp⟩

theorem block_comment_state (start : Nat) (st : LexState) :
    (block_comment start st).2.source = st.source ∧
      (block_comment start st).2.at_eof = st.at_eof ∧
      st.pos ≤ (block_comment start st).2.pos := by
  unfold block_comment
  dsimp only
  split <;>
    exact ⟨advanceBy_source st _, advanceBy_at_eof st _, by simp⟩

set_option maxHeartbeats 1000000 in
theorem scanDispatch_state (c : Char) (start : Nat) (st : LexState) :
    (scanDispatch c start st).2.source = st.source ∧
      (scanDispatch c start st).2.at_eof = st.at_eof ∧
      st.pos ≤ (scanDispatch c start st).2.pos := by
  unfold scanDispatch
  split
  · exact ⟨rfl, rfl, le_refl _⟩
  · exact ⟨rfl, rfl, le_refl _⟩
  · exact ⟨rfl, rfl, le_refl _⟩
  · exact ⟨rfl, rfl, le_refl _⟩
  · exact ⟨rfl, rfl, le_refl _⟩
  · exact ⟨rfl, rfl, le_refl _⟩
  · exact ⟨rfl, rfl, le_refl _⟩
  · exact ⟨rfl, rfl, le_refl _⟩
  · exact ⟨rfl, rfl, le_refl _⟩
  · exact ⟨rfl, rfl, le_refl _⟩
  · split
    · exact lineComment_state st
    · obtain ⟨hs2, he2, hp2⟩ := advance_state st
      obtain ⟨hs, he, hp⟩ := block_comment_state start (advance st).2
      exact ⟨by rw [hs, hs2], by rw [he, he2], le_trans hp2 hp⟩
    · exact ⟨rfl, rfl, le_refl _⟩
  · exact twoCharOp_state .BangEq .Bang st
  · exact twoCharOp_state .EqualEq .Equal st
  · exact twoCharOp_state .GreaterEq .Greater st
  · exact twoCharOp_state .LessEq .Less st
  · exact string_state start st
  · split_ifs
    · exact number_state start st
    · exact identifier_state start st
    · exact ⟨rfl, rfl, le_refl _⟩

/-- Termination measure for the scanning loops: remaining characters,
plus one extra step for the pending `Eof` emission. -/
def phi (st : LexState) : Nat :=
  (st.source.length - st.pos) + (if st.at_eof then 0 else 1)

theorem phi_lt_scanBound (st : LexState) : phi st < scanBound st := by
  unfold phi scanBound
  split <;> omega

/-- Every `some` result of `scan_token` strictly decreases `phi`, and
the source buffer is never modified. -/
theorem scan_token_progress (st : LexState) (r : Except SyntaxError Token)
    (h : (scan_token st).1 = some r) :
    phi (scan_token st).2 < phi st ∧ (scan_token st).2.source = st.source := by
  unfold scan_token at h ⊢
  dsimp only at h ⊢
  set st0 := (advance_while is_whitespace st).2 with hst0
  obtain ⟨hs0, he0, hp0⟩ := advance_while_state is_whitespace st
  rw [← hst0] at hs0 he0 hp0
  cases h0 : rem st0 with
  | nil =>
    rw [advance_of_rem_nil h0] at h ⊢
    dsimp only at h ⊢
    by_cases heof : st0.at_eof
    · rw [if_pos heof] at h
      exact absurd h (by simp)
    · rw [if_neg heof] at h ⊢
      rw [Bool.not_eq_true] at heof
      refine ⟨?_, hs0⟩
      unfold phi
      have hef : st.at_eof = false := by rw [← he0]; exact heof
      rw [hs0, hef]
      simp
      omega
  | cons c rest =>
    rw [advance_of_rem_cons h0] at h ⊢
    dsimp only at h ⊢
    obtain ⟨hds, hde, hdp⟩ := scanDispatch_state c st0.pos
      { st0 with
        pos := st0.pos + 1
        line := if c = '\n' then st0.line + 1 else st0.line }
    have hlt : st0.pos < st.source.length := by
      rw [← hs0]; exact rem_nonempty_pos_lt h0
    cases hd : scanDispatch c st0.pos
        { st0 with
          pos := st0.pos + 1
          line := if c = '\n' then st0.line + 1 else st0.line } with
    | mk o st2 =>
      rw [hd] at hds hde hdp
      dsimp only at hds hde hdp ⊢
      have h2s : st2.source = st.source := by rw [hds]; exact hs0
      have h2e : st2.at_eof = st.at_eof := by rw [hde]; exact he0
      have h2p : st0.pos + 1 ≤ st2.pos := hdp
      cases o with
      | ok ty =>
        refine ⟨?_, h2s⟩
        unfold phi
        rw [h2s, h2e]
        cases st.at_eof <;> simp <;> omega
      | error e =>
        refine ⟨?_, h2s⟩
        unfold phi
        rw [h2s, h2e]
        cases st.at_eof <;> simp <;> omega

/-- Once the scanner has returned `none` it keeps returning `none`:
`none` is only possible with `at_eof` set and no characters left. -/
theorem scan_token_none_of_exhausted {st : LexState} (h1 : rem st = [])
    (h2 : st.at_eof = true) : scan_token st = (none, st) := by
  unfold scan_token
  dsimp only
  have hcw : countWhile is_whitespace (rem st) = 0 := by rw [h1]; rfl
  have hst0 : (advance_while is_whitespace st).2 = st := by
    unfold advance_while
    dsimp only
    rw [hcw, advanceBy_zero]
  rw [hst0, advance_of_rem_nil h1]
  dsimp only
  rw [if_pos h2]

/-! ### Fuel stability and the termination bound -/

theorem tokensFuel_congr :
    ∀ (f g : Nat) (st : LexState), phi st < f → phi st < g →
      tokensFuel f st = tokensFuel g st := by
  intro f
  induction f with
  | zero => intro g st hf; omega
  | succ f ih =>
    intro g st hf hg
    cases g with
    | zero => omega
    | succ g =>
      unfold tokensFuel
      cases hs : scan_token st with
      | mk o st' =>
        cases o with
        | none => rfl
        | some r =>
          have := scan_token_progress st r (by rw [hs])
          rw [hs] at this
          dsimp only at this
          dsimp only
          rw [ih g st' (by omega) (by omega)]

theorem tokensFuel_stable (fuel : Nat) (st : LexState)
    (h : scanBound st ≤ fuel) : tokensFuel fuel st = tokens st :=
  tokensFuel_congr fuel (scanBound st) st
    (lt_of_lt_of_le (phi_lt_scanBound st) h) (phi_lt_scanBound st)

theorem tokensFuel_length :
    ∀ (fuel : Nat) (st : LexState), (tokensFuel fuel st).length ≤ phi st := by
  intro fuel
  induction fuel with
  | zero => intro st; simp [tokensFuel]
  | succ fuel ih =>
    intro st
    unfold tokensFuel
    cases hs : scan_token st with
    | mk o st' =>
      cases o with
      | none => simp
      | some r =>
        have := scan_token_progress st r (by rw [hs])
        rw [hs] at this
        dsimp only at this
        have hl := ih st'
        dsimp only
        simp only [List.length_cons]
        omega

theorem itemsFuel_eq_filter :
    ∀ (fuel : Nat) (st : LexState),
      itemsFuel fuel st =
        (tokensFuel fuel st).filter (fun r => !isCommentItem r) := by
  intro fuel
  induction fuel with
  | zero => intro st; rfl
  | succ fuel ih =>
    intro st
    unfold itemsFuel tokensFuel
    cases hs : scan_token st with
    | mk o st' =>
      cases o with
      | none => rfl
      | some r =>
        dsimp only
        by_cases hc : isCommentItem r
        · simp [hc, ih st', List.filter_cons]
        · simp [hc, ih st', List.filter_cons]

theorem items_eq_filter (st : LexState) :
    items st = (tokens st).filter (fun r => !isCommentItem r) :=
  itemsFuel_eq_filter (scanBound st) st

/-- C8.  For every input of length `N`, the token sequence is finite:
the scanner is exhausted after at most `N + 2` pulls — any fuel of at
least `N + 2` produces the same (complete) item list, and that list has
at most `N + 1` items (at most one per consumed character, plus the
single `Eof`), including on pathological inputs that end mid-literal or
mid-comment. -/
theorem C8_termination_bound (s : List Char) (fuel : Nat)
    (h : s.length + 2 ≤ fuel) :
    tokensFuel fuel (init s) = tokens (init s) ∧
      (tokens (init s)).length ≤ s.length + 1 := by
  constructor
  · exact tokensFuel_stable fuel (init s) (by simpa [scanBound, init] using h)
  · have := tokensFuel_length (scanBound (init s)) (init s)
    have hphi : phi (init s) = s.length + 1 := by simp [phi, init]
    rw [← tokens] at this
    omega

theorem C8_termination_bound_witness :
    "1 + /*".toList.length + 2 ≤ 10 ∧
      (tokensFuel 10 (init "1 + /*".toList) = tokens (init "1 + /*".toList) ∧
        (tokens (init "1 + /*".toList)).length ≤ "1 + /*".toList.length + 1) :=
  ⟨by decide, C8_termination_bound "1 + /*".toList 10 (by decide)⟩

/-! ### Shapes of dispatch results -/

theorem block_comment_fst (start : Nat) (st : LexState) :
    (block_comment start st).1 = .ok .Comment ∨
      (block_comment start st).1 =
        .error (.UnterminatedBlockComment st.source (start, 2)) := by
  unfold block_comment
  dsimp only
  split
  · right; rfl
  · left; rfl

theorem twoCharOp_fst (two one : TokenType) (st : LexState) :
    (twoCharOp two one st).1 = two ∨ (twoCharOp two one st).1 = one := by
  unfold twoCharOp
  split
  · left; rfl
  · right; rfl

theorem string_fst (start : Nat) (st : LexState) :
    (∃ l, (string start st).1 = .ok (.String l)) ∨
      (string start st).1 = .error (.UnterminatedString st.source (start, 1)) := by
  unfold string
  dsimp only
  split
  · right; rfl
  · left; exact ⟨_, rfl⟩

theorem number_fst (start : Nat) (st : LexState) :
    ∃ q, (number start st).1 = .Number q := by
  unfold number
  dsimp only
  exact ⟨_, rfl⟩

theorem identifier_fst (start : Nat) (st : LexState) :
    (∃ k, (identifier start st).1 = .Keyword k) ∨
      ∃ l, (identifier start st).1 = .Identifier l := by
  unfold identifier
  dsimp only
  split
  · left; exact ⟨_, rfl⟩
  · right; exact ⟨_, rfl⟩

/-- Whether a token type is the end-of-stream marker. -/
def tyIsEof : TokenType → Bool
  | .Eof => true
  | _ => false

/-- Whether an item is the successfully scanned `Eof` token. -/
def isEofItem : Except SyntaxError Token → Bool
  | .ok t => tyIsEof t.ty
  | .error _ => false

/-- The dispatch `match` never produces the `Eof` token type: `Eof` is
emitted only by the end-of-input branch of `scan_token`. -/
theorem scanDispatch_not_eof (c : Char) (start : Nat) (st : LexState)
    (ty : TokenType) (h : (scanDispatch c start st).1 = .ok ty) :
    tyIsEof ty = false := by
  unfold scanDispatch at h
  split at h
  · injection h with h2; subst h2; rfl
  · injection h with h2; subst h2; rfl
  · injection h with h2; subst h2; rfl
  · injection h with h2; subst h2; rfl
  · injection h with h2; subst h2; rfl
  · injection h with h2; subst h2; rfl
  · injection h with h2; subst h2; rfl
  · injection h with h2; subst h2; rfl
  · injection h with h2; subst h2; rfl
  · injection h with h2; subst h2; rfl
  · split at h
    · injection h with h2; subst h2; rfl
    · rcases block_comment_fst start (advance st).2 with hb | hb <;>
        rw [hb] at h
      · injection h with h2; subst h2; rfl
      · exact absurd h (by simp)
    · injection h with h2; subst h2; rfl
  · dsimp only at h
    injection h with h2
    rcases twoCharOp_fst .BangEq .Bang st with h3 | h3 <;>
      rw [h3] at h2 <;> subst h2 <;> rfl
  · dsimp only at h
    injection h with h2
    rcases twoCharOp_fst .EqualEq .Equal st with h3 | h3 <;>
      rw [h3] at h2 <;> subst h2 <;> rfl
  · dsimp only at h
    injection h with h2
    rcases twoCharOp_fst .GreaterEq .Greater st with h3 | h3 <;>
      rw [h3] at h2 <;> subst h2 <;> rfl
  · dsimp only at h
    injection h with h2
    rcases twoCharOp_fst .LessEq .Less st with h3 | h3 <;>
      rw [h3] at h2 <;> subst h2 <;> rfl
  · rcases string_fst start st with ⟨l, hb⟩ | hb <;> rw [hb] at h
    · injection h with h2; subst h2; rfl
    · exact absurd h (by simp)
  · split_ifs at h
    · dsimp only at h
      injection h with h2
      obtain ⟨q, hq⟩ := number_fst start st
      rw [hq] at h2
      subst h2; rfl
    · dsimp only at h
      injection h with h2
      rcases identifier_fst start st with ⟨k, hb⟩ | ⟨l, hb⟩ <;>
        rw [hb] at h2 <;> subst h2 <;> rfl

/-- Case analysis of a `scan_token` pull: either the scanner was already
exhausted (`none`, `at_eof` untouched), or this pull emits the `Eof`
token (flipping `at_eof` from `false` to `true`, with no characters
left), or it emits a non-`Eof` item leaving `at_eof` unchanged. -/
theorem scan_token_cases (st : LexState) :
    ((scan_token st).1 = none ∧ st.at_eof = true ∧
      (scan_token st).2.at_eof = st.at_eof) ∨
      (∃ t, (scan_token st).1 = some (.ok t) ∧ tyIsEof t.ty = true ∧
        st.at_eof = false ∧ (scan_token st).2.at_eof = true ∧
        rem (scan_token st).2 = []) ∨
      (∃ r, (scan_token st).1 = some r ∧ isEofItem r = false ∧
        (scan_token st).2.at_eof = st.at_eof) := by
  unfold scan_token
  dsimp only
  set st0 := (advance_while is_whitespace st).2 with hst0
  obtain ⟨hs0, he0, hp0⟩ := advance_while_state is_whitespace st
  rw [← hst0] at hs0 he0 hp0
  cases h0 : rem st0 with
  | nil =>
    rw [advance_of_rem_nil h0]
    dsimp only
    by_cases heof : st0.at_eof
    · rw [if_pos heof]
      left
      exact ⟨rfl, by rw [← he0]; exact heof, he0⟩
    · rw [if_neg heof]
      right; left
      refine ⟨_, rfl, rfl, ?_, rfl, ?_⟩
      · rw [← he0]
        rw [Bool.not_eq_true] at heof
        exact heof
      · dsimp only [rem] at h0 ⊢
        exact h0
  | cons c rest =>
    rw [advance_of_rem_cons h0]
    dsimp only
    obtain ⟨hds, hde, hdp⟩ := scanDispatch_state c st0.pos
      { st0 with
        pos := st0.pos + 1
        line := if c = '\n' then st0.line + 1 else st0.line }
    cases hd : scanDispatch c st0.pos
        { st0 with
          pos := st0.pos + 1
          line := if c = '\n' then st0.line + 1 else st0.line } with
    | mk o st2 =>
      rw [hd] at hds hde hdp
      dsimp only at hds hde hdp ⊢
      right; right
      cases o with
      | ok ty =>
        refine ⟨_, rfl, ?_, by rw [hde]; exact he0⟩
        have := scanDispatch_not_eof c st0.pos _ ty (by rw [hd])
        simpa [isEofItem] using this
      | error e =>
        exact ⟨_, rfl, rfl, by rw [hde]; exact he0⟩

theorem tyIsEof_iff (ty : TokenType) : tyIsEof ty = true ↔ ty = .Eof := by
  cases ty <;> simp [tyIsEof]

/-- Eof counting for the raw `scan_token` stream: a scanner state that
has not yet emitted `Eof` produces exactly one `Eof` item, and it is the
last item; a state past `Eof` produces none. -/
theorem tokensFuel_eof (fuel : Nat) :
    ∀ st : LexState, phi st < fuel →
      ((tokensFuel fuel st).countP (fun r => isEofItem r) =
        if st.at_eof then 0 else 1) ∧
      (st.at_eof = false →
        ∃ l t, tokensFuel fuel st = l ++ [.ok t] ∧ t.ty = .Eof) := by
  induction fuel with
  | zero => intro st h; omega
  | succ fuel ih =>
    intro st hphi
    rcases scan_token_cases st with ⟨h1, h2, h3⟩ | ⟨t, h1, h2, h3, h4, h5⟩ |
      ⟨r, h1, h2, h3⟩
    · cases hs : scan_token st with
      | mk o st' =>
        rw [hs] at h1
        dsimp only at h1
        subst h1
        unfold tokensFuel
        rw [hs]
        dsimp only
        refine ⟨by simp [h2], fun hf => ?_⟩
        rw [h2] at hf
        exact absurd hf (by simp)
    · cases hs : scan_token st with
      | mk o st' =>
        rw [hs] at h1 h4 h5
        dsimp only at h1 h4 h5
        subst h1
        unfold tokensFuel
        rw [hs]
        dsimp only
        have hst' : tokensFuel fuel st' = [] := by
          cases fuel with
          | zero => rfl
          | succ fuel2 =>
            unfold tokensFuel
            rw [scan_token_none_of_exhausted h5 h4]
        rw [hst']
        constructor
        · rw [h3]
          simp [List.countP_cons, isEofItem, h2]
        · exact fun _ => ⟨[], t, rfl, (tyIsEof_iff t.ty).mp h2⟩
    · cases hs : scan_token st with
      | mk o st' =>
        rw [hs] at h1 h3
        dsimp only at h1 h3
        subst h1
        unfold tokensFuel
        rw [hs]
        dsimp only
        have hprog := scan_token_progress st r (by rw [hs])
        rw [hs] at hprog
        dsimp only at hprog
        obtain ⟨ihc, ihl⟩ := ih st' (by omega)
        constructor
        · rw [List.countP_cons, ihc, h3, h2]
          simp
        · intro hf
          obtain ⟨l, t, hl, ht⟩ := ihl (by rw [h3, hf])
          exact ⟨r :: l, t, by rw [hl]; rfl, ht⟩

/-- C2 fails on the program: the claimed once-per-lifetime `Ok(Eof)`
item is never produced on input `"é"` (U+00E9, two UTF-8 bytes).  The
first pull dispatches to identifier scanning, which consumes the single
character (`start = 0`, `end = 0`) and slices
`&self.source[start..=end]`, the byte range `[0, 1)` — but byte 1 lies
inside the two-byte encoding, so the slice panics (`byteSlice` is
`none`) and the iterator aborts before yielding any item: the lifetime
contains zero `Ok(Eof)` items, not exactly one. -/
theorem C2_eof_unreached :
    (scan_token (init [Char.ofNat 0xE9])).1 =
      some (.ok { ty := .Identifier [Char.ofNat 0xE9],
                  position := { line := 1, start := 0, endPos := 1 } }) ∧
    is_alphabetic (Char.ofNat 0xE9) = true ∧
    is_numeric (Char.ofNat 0xE9) = false ∧
    utf8Len (Char.ofNat 0xE9) = 2 ∧
    isCharBoundary [Char.ofNat 0xE9] 1 = false ∧
    byteSlice [Char.ofNat 0xE9] 0 1 = none := by
  exact ⟨by decide, by decide, by decide, by decide, by decide, by decide⟩

/-! ### The block-comment loop -/

/-- The block-comment loop consumes at most the remaining input, and
when it ends with a positive nesting count it has consumed all of it
(the loop only stops early by reaching count 0). -/
theorem bcSteps_le (count : Nat) (l : List Char) :
    (bcSteps count l).1 ≤ l.length ∧
      ((bcSteps count l).2 ≠ 0 → (bcSteps count l).1 = l.length) := by
  induction count, l using bcSteps.induct with
  | case1 count => simp [bcSteps]
  | case2 rest2 => simp [bcSteps]
  | case3 count rest2 h ih =>
    rw [show bcSteps count ('/' :: '*' :: rest2) =
        ((bcSteps (count + 1) rest2).1 + 2, (bcSteps (count + 1) rest2).2) by
      rw [bcSteps.eq_def]; simp [h]]
    obtain ⟨ih1, ih2⟩ := ih
    refine ⟨by simpa using ih1, fun hc => ?_⟩
    have := ih2 hc
    simp [this]
  | case4 rest2 => simp [bcSteps]
  | case5 count rest2 h ih =>
    rw [show bcSteps count ('*' :: '/' :: rest2) =
        ((bcSteps (count - 1) rest2).1 + 2, (bcSteps (count - 1) rest2).2) by
      rw [bcSteps.eq_def]; simp [h]]
    obtain ⟨ih1, ih2⟩ := ih
    refine ⟨by simpa using ih1, fun hc => ?_⟩
    have := ih2 hc
    simp [this]
  | case6 c rest hx1 hx2 => simp [bcSteps]
  | case7 count c rest hx1 hx2 h ih =>
    have hstep : bcSteps count (c :: rest) =
        ((bcSteps count rest).1 + 1, (bcSteps count rest).2) := by
      rw [bcSteps.eq_def]
      split
      · rename_i heq; exact absurd heq (by simp)
      · rename_i heq
        injection heq with e1 e2
        exact absurd (hx1 _ e1 e2) id
      · rename_i heq
        injection heq with e1 e2
        exact absurd (hx2 _ e1 e2) id
      · rename_i heq
        injection heq with e1 e2
        subst e1; subst e2
        simp [h]
    rw [hstep]
    obtain ⟨ih1, ih2⟩ := ih
    refine ⟨by simpa using ih1, fun hc => ?_⟩
    have := ih2 hc
    simp [this]

/-- C3.  Block-comment scanning tracks a nesting count starting at 1:
`/*` increments and consumes two characters, `*/` decrements and
consumes two, anything else one (the `bcSteps` loop).  It succeeds with
a `Comment` exactly when the count reaches 0, and otherwise fails with
`UnterminatedBlockComment` spanning two characters at the outermost `/*`
offset, having consumed the whole remaining input.  Concretely,
`"/* /* */ */"` scans as one completed block comment and `"/* /* */"`
yields the error anchored at offset 0. -/
theorem C3_block_comment_nesting :
    (∀ (st : LexState) (start : Nat),
      ((block_comment start st).1 = .ok .Comment ∧
        (bcSteps 1 (rem st)).2 = 0) ∨
      ((block_comment start st).1 =
          .error (.UnterminatedBlockComment st.source (start, 2)) ∧
        (bcSteps 1 (rem st)).2 ≠ 0 ∧
        rem (block_comment start st).2 = [])) ∧
    tokens (init "/* /* */ */".toList) =
      [.ok { ty := .Comment, position := { line := 1, start := 0, endPos := 11 } },
       .ok { ty := .Eof, position := { line := 1, start := 11, endPos := 11 } }] ∧
    tokens (init "/* /* */".toList) =
      [.error (.UnterminatedBlockComment "/* /* */".toList (0, 2)),
       .ok { ty := .Eof, position := { line := 1, start := 8, endPos := 8 } }] := by
  refine ⟨fun st start => ?_, by decide, by decide⟩
  unfold block_comment
  dsimp only
  split
  · rename_i hpos
    right
    refine ⟨rfl, by omega, ?_⟩
    rw [rem_advanceBy]
    have := (bcSteps_le 1 (rem st)).2 (by omega)
    rw [this, List.drop_length]
  · rename_i hpos
    left
    exact ⟨rfl, by omega⟩

/-! ### countWhile lemmas -/

theorem countWhile_le (p : Char → Bool) (l : List Char) :
    countWhile p l ≤ l.length := by
  induction l with
  | nil => simp [countWhile]
  | cons c rest ih =>
    unfold countWhile
    split
    · simpa using ih
    · simp

theorem countWhile_all (p : Char → Bool) (l : List Char)
    (h : ∀ x ∈ l, p x = true) : countWhile p l = l.length := by
  induction l with
  | nil => rfl
  | cons c rest ih =>
    unfold countWhile
    rw [if_pos (h c (by simp)), ih (fun x hx => h x (by simp [hx]))]
    rfl

theorem countWhile_append_stop (p : Char → Bool) (a : List Char) (c : Char)
    (b : List Char) (ha : ∀ x ∈ a, p x = true) (hc : p c = false) :
    countWhile p (a ++ c :: b) = a.length := by
  induction a with
  | nil => simp [countWhile, hc]
  | cons x rest ih =>
    unfold countWhile
    simp only [List.cons_append]
    rw [if_pos (ha x (by simp)), ih (fun y hy => ha y (by simp [hy]))]
    rfl

/-- String scanning in the character-indexed model: the payload is the
source slice strictly between the quotes, and exhaustion yields
`UnterminatedString` with a one-character span at the opening quote.
This is the intended behaviour; `C6_string_payload_bytes` below shows
the program's byte-indexed slice diverges from it. -/
theorem string_scanning_model :
    (∀ (st : LexState) (start : Nat) (a b : List Char),
        st.pos = start + 1 → rem st = a ++ '"' :: b → '"' ∉ a →
        (string start st).1 = .ok (.String a) ∧
          (string start st).2.pos = st.pos + a.length + 1) ∧
    (∀ (st : LexState) (start : Nat),
        st.pos = start + 1 → (∀ c ∈ rem st, c ≠ '"') →
        (string start st).1 =
            .error (.UnterminatedString st.source (start, 1)) ∧
          (string start st).2.pos = st.pos + (rem st).length) ∧
    lexer "\"hello".toList =
      [.error (.UnterminatedString "\"hello".toList (0, 1)),
       .ok { ty := .Eof, position := { line := 1, start := 6, endPos := 6 } }] := by
  refine ⟨fun st start a b hpos hrem hq => ?_, fun st start hpos hnq => ?_,
    by decide⟩
  · have hcw : countWhile (fun ch => ch != '"') (rem st) = a.length := by
      rw [hrem]
      exact countWhile_append_stop _ a '"' b
        (fun x hx => by
          simp only [bne_iff_ne, ne_eq, decide_eq_true_eq]
          intro hxq
          exact hq (hxq ▸ hx))
        (by simp)
    unfold string advance_while
    dsimp only
    rw [hcw]
    have hr2 : rem (advanceBy st a.length) = '"' :: b := by
      rw [rem_advanceBy, hrem, List.drop_left' rfl]
    rw [advance_of_rem_cons hr2]
    dsimp only
    constructor
    · have hsl : (st.source.drop (start + 1)).take a.length = a := by
        rw [← hpos]
        have : st.source.drop st.pos = rem st := rfl
        rw [this, hrem, List.take_left' rfl]
      simp only [advanceBy_source]
      rw [hsl]
    · simp
  · have hcw : countWhile (fun ch => ch != '"') (rem st) = (rem st).length :=
      countWhile_all _ _ (fun x hx => by
        simp only [bne_iff_ne, ne_eq, decide_eq_true_eq]
        exact hnq x hx)
    unfold string advance_while
    dsimp only
    rw [hcw]
    have hr2 : rem (advanceBy st (rem st).length) = [] := by
      rw [rem_advanceBy, List.drop_length]
    rw [advance_of_rem_nil hr2]
    dsimp only
    exact ⟨rfl, by simp⟩

/-- Concrete instance of the model-level string characterisation. -/
theorem string_scanning_model_check :
    (LexState.pos ⟨['"', 'h', 'i'], 1, 1, false⟩ = 0 + 1) ∧
      (∀ c ∈ rem ⟨['"', 'h', 'i'], 1, 1, false⟩, c ≠ '"') ∧
      ((string 0 ⟨['"', 'h', 'i'], 1, 1, false⟩).1 =
        .error (.UnterminatedString ['"', 'h', 'i'] (0, 1)) ∧
        (string 0 ⟨['"', 'h', 'i'], 1, 1, false⟩).2.pos = 1 + 2) :=
  ⟨rfl, by decide,
    string_scanning_model.2.1 ⟨['"', 'h', 'i'], 1, 1, false⟩ 0 rfl (by decide)⟩

/-- C6 fails on the program: the payload is not the source slice
strictly between the quotes once a multi-byte character is involved.
On `"\"éx\""` the scan counts `len = 2` characters before the closing
quote and slices `&self.source[start+1..start+1+len]`, the byte range
`[1, 3)`.  Both 1 and 3 are character boundaries (bytes: `"` at 0, `é`
at 1–2, `x` at 3, `"` at 4), so there is no panic and the program
succeeds with payload `"é"` — not the between-quotes text `"éx"` that
the character-indexed model (and the claim) produce. -/
theorem C6_string_payload_bytes :
    (string 0 ⟨'"' :: Char.ofNat 0xE9 :: 'x' :: '"' :: [], 1, 1, false⟩).1 =
      .ok (.String [Char.ofNat 0xE9, 'x']) ∧
    countWhile (fun ch => ch != '"')
      (rem ⟨'"' :: Char.ofNat 0xE9 :: 'x' :: '"' :: [], 1, 1, false⟩) = 2 ∧
    byteSlice ('"' :: Char.ofNat 0xE9 :: 'x' :: '"' :: []) 1 3 =
      some [Char.ofNat 0xE9] ∧
    [Char.ofNat 0xE9] ≠ [Char.ofNat 0xE9, 'x'] := by
  exact ⟨by decide, by decide, by decide, by decide⟩

/-- The characters with their own dispatch arm in `scan_token`. -/
def dispatchChars : List Char :=
  ['(', ')', '{', '}', ',', ';', '.', '-', '+', '*', '/', '!', '=', '>',
   '<', '"']

/-- The wildcard arm of the dispatch `match`: for a character with no
arm of its own, dispatch falls through to the numeric, alphabetic, and
unexpected-character cases. -/
theorem scanDispatch_default (c : Char) (start : Nat) (st : LexState)
    (h : c ∉ dispatchChars) :
    scanDispatch c start st =
      if is_numeric c then (.ok (number start st).1, (number start st).2)
      else if is_alphabetic c then
        (.ok (identifier start st).1, (identifier start st).2)
      else (.error (.UnexpectedCharacter st.source (start, 1) c), st) := by
  unfold scanDispatch
  split <;> first
    | exact absurd h (by decide)
    | rfl

/-- C7.  When the first non-whitespace character matches no dispatch
rule, `scan_token` returns `UnexpectedCharacter` carrying that character
and a one-character span at its offset, and the cursor has advanced
exactly one character past it.  Concretely, input `"@"` yields
`UnexpectedCharacter('@')` with span `(0, 1)` followed by `Eof`. -/
theorem C7_unexpected_character :
    (∀ (st : LexState) (c : Char) (rest : List Char),
        rem (advance_while is_whitespace st).2 = c :: rest →
        c ∉ dispatchChars → is_numeric c = false → is_alphabetic c = false →
        (scan_token st).1 =
          some (.error (.UnexpectedCharacter st.source
            ((advance_while is_whitespace st).2.pos, 1) c)) ∧
          (scan_token st).2.pos = (advance_while is_whitespace st).2.pos + 1) ∧
    lexer "@".toList =
      [.error (.UnexpectedCharacter "@".toList (0, 1) '@'),
       .ok { ty := .Eof, position := { line := 1, start := 1, endPos := 1 } }] := by
  refine ⟨fun st c rest h0 hd hn ha => ?_, by decide⟩
  unfold scan_token
  dsimp only
  set st0 := (advance_while is_whitespace st).2 with hst0
  obtain ⟨hs0, he0, hp0⟩ := advance_while_state is_whitespace st
  rw [← hst0] at hs0 he0 hp0
  rw [advance_of_rem_cons h0]
  dsimp only
  rw [scanDispatch_default c st0.pos _ hd, if_neg (by rw [hn]; simp),
    if_neg (by rw [ha]; simp)]
  dsimp only
  exact ⟨by rw [hs0], rfl⟩

theorem C7_unexpected_character_witness :
    (rem (advance_while is_whitespace (init ['@'])).2 = '@' :: [] ∧
      '@' ∉ dispatchChars ∧ is_numeric '@' = false ∧
      is_alphabetic '@' = false) ∧
    ((scan_token (init ['@'])).1 =
      some (.error (.UnexpectedCharacter (init ['@']).source
        ((advance_while is_whitespace (init ['@'])).2.pos, 1) '@')) ∧
      (scan_token (init ['@'])).2.pos =
        (advance_while is_whitespace (init ['@'])).2.pos + 1) :=
  ⟨⟨by decide, by decide, by decide, by decide⟩,
    C7_unexpected_character.1 (init ['@']) '@' [] (by decide) (by decide)
      (by decide) (by decide)⟩

section

set_option maxHeartbeats 3000000

/-- Keyword classification in the model: `from_str` of a keyword's
lexeme returns that keyword, `from_str` succeeds on exactly the sixteen
keyword strings (case-sensitive exact match; `from_str` does no slicing,
so these two facts hold of the program as well), and the
character-indexed identifier model produces `Keyword k` exactly when the
scanned word equals `k`'s lexeme.  `C10_keyword_misclassification` below
shows the program's byte-indexed slice breaks the last equivalence. -/
theorem keyword_from_str_exact :
    (∀ k : Keyword, Keyword.from_str k.lexeme = some k) ∧
    (∀ (l : List Char) (k : Keyword),
        Keyword.from_str l = some k ↔ l = k.lexeme) ∧
    (∀ (st : LexState) (start : Nat) (k : Keyword),
        (identifier start st).1 = .Keyword k ↔
          (st.source.drop start).take
            (countWhile (fun ch => is_alphanumeric ch || ch == '_') (rem st) + 1)
            = k.lexeme) := by
  have h1 : ∀ k : Keyword, Keyword.from_str k.lexeme = some k := by
    intro k; cases k <;> decide
  have h2 : ∀ (l : List Char) (k : Keyword),
      Keyword.from_str l = some k ↔ l = k.lexeme := by
    intro l k
    constructor
    ·
      intro h
      unfold Keyword.from_str at h
      by_cases e1 : l = ['l', 'e', 't']
      · rw [if_pos e1] at h
        injection h with h3
        subst h3
        exact e1
      · rw [if_neg e1] at h
        by_cases e2 : l = ['f', 'n']
        · rw [if_pos e2] at h
          injection h with h3
          subst h3
          exact e2
        · rw [if_neg e2] at h
          by_cases e3 : l = ['r', 'e', 't', 'u', 'r', 'n']
          · rw [if_pos e3] at h
            injection h with h3
            subst h3
            exact e3
          · rw [if_neg e3] at h
            by_cases e4 : l = ['c', 'l', 'a', 's', 's']
            · rw [if_pos e4] at h
              injection h with h3
              subst h3
              exact e4
            · rw [if_neg e4] at h
              by_cases e5 : l = ['s', 'u', 'p', 'e', 'r']
              · rw [if_pos e5] at h
                injection h with h3
                subst h3
                exact e5
              · rw [if_neg e5] at h
                by_cases e6 : l = ['t', 'h', 'i', 's']
                · rw [if_pos e6] at h
                  injection h with h3
                  subst h3
                  exact e6
                · rw [if_neg e6] at h
                  by_cases e7 : l = ['a', 'n', 'd']
                  · rw [if_pos e7] at h
                    injection h with h3
                    subst h3
                    exact e7
                  · rw [if_neg e7] at h
                    by_cases e8 : l = ['o', 'r']
                    · rw [if_pos e8] at h
                      injection h with h3
                      subst h3
                      exact e8
                    · rw [if_neg e8] at h
                      by_cases e9 : l = ['i', 'f']
                      · rw [if_pos e9] at h
                        injection h with h3
                        subst h3
                        exact e9
                      · rw [if_neg e9] at h
                        by_cases e10 : l = ['e', 'l', 's', 'e']
                        · rw [if_pos e10] at h
                          injection h with h3
                          subst h3
                          exact e10
                        · rw [if_neg e10] at h
                          by_cases e11 : l = ['t', 'r', 'u', 'e']
                          · rw [if_pos e11] at h
                            injection h with h3
                            subst h3
                            exact e11
                          · rw [if_neg e11] at h
                            by_cases e12 : l = ['f', 'a', 'l', 's', 'e']
                            · rw [if_pos e12] at h
                              injection h with h3
                              subst h3
                              exact e12
                            · rw [if_neg e12] at h
                              by_cases e13 : l = ['f', 'o', 'r']
                              · rw [if_pos e13] at h
                                injection h with h3
                                subst h3
                                exact e13
                              · rw [if_neg e13] at h
                                by_cases e14 : l = ['w', 'h', 'i', 'l', 'e']
                                · rw [if_pos e14] at h
                                  injection h with h3
                                  subst h3
                                  exact e14
                                · rw [if_neg e14] at h
                                  by_cases e15 : l = ['n', 'i', 'l']
                                  · rw [if_pos e15] at h
                                    injection h with h3
                                    subst h3
                                    exact e15
                                  · rw [if_neg e15] at h
                                    by_cases e16 : l = ['p', 'r', 'i', 'n', 't']
                                    · rw [if_pos e16] at h
                                      injection h with h3
                                      subst h3
                                      exact e16
                                    · rw [if_neg e16] at h
                                      exact absurd h (by simp)
    · intro h
      subst h
      exact h1 k
  refine ⟨h1, h2, fun st start k => ?_⟩
  unfold identifier advance_while
  dsimp only
  simp only [advanceBy_source]
  constructor
  · intro h
    split at h
    · rename_i kw hkw
      injection h with h3
      subst h3
      exact (h2 _ _).mp hkw
    · exact absurd h (by simp)
  · intro h
    split
    · rename_i kw hkw
      rw [(h2 _ _).mp hkw] at h
      have e := h1 kw
      rw [h, h1 k] at e
      injection e with e2
      exact congrArg TokenType.Keyword e2.symm
    · rename_i hkw
      exact absurd ((h2 _ k).mpr h) (by rw [hkw]; simp)

end

/-- C10 fails on the program: a scanned word equal to a keyword's
lexeme is not always classified as that keyword.  On `"/*é*/let x"` the
word scanned after the block comment is `let`, at character indices
`start = 5`, `end = 7`; the character-indexed model classifies it
`Keyword(Let)`.  The program, however, slices
`&self.source[start..=end]`, the byte range `[5, 8)` — and because `é`
occupies two bytes, the byte offset of character 5 is 6, so the slice
reads `"/le"` (both 5 and 8 are character boundaries: no panic),
`Keyword::from_str("/le")` fails, and the program emits
`Identifier("/le")` instead of `Keyword(Let)`. -/
theorem C10_keyword_misclassification :
    lexer "/*é*/let x".toList =
      [.ok { ty := .Keyword .Let, position := { line := 1, start := 5, endPos := 8 } },
       .ok { ty := .Identifier ['x'], position := { line := 1, start := 9, endPos := 10 } },
       .ok { ty := .Eof, position := { line := 1, start := 10, endPos := 10 } }] ∧
    utf8ByteIdx "/*é*/let x".toList 5 = 6 ∧
    byteSlice "/*é*/let x".toList 5 8 = some ['/', 'l', 'e'] ∧
    Keyword.from_str ['/', 'l', 'e'] = none ∧
    ('/' :: 'l' :: 'e' :: []) ≠ Keyword.lexeme .Let := by
  exact ⟨by decide, by decide, by decide, by decide, by decide⟩

/-- C9.  `"let x = 3.14;"` tokenizes to exactly
`Keyword(Let), Identifier("x"), Equal, Number(3.14), Semicolon, Eof`;
the fractional part is consumed only because a digit follows the `.`,
whereas in `"3."` the trailing `.` is left unconsumed and tokenized
separately as `Dot` after `Number(3.0)`. -/
theorem C9_number_scanning :
    lexer "let x = 3.14;".toList =
      [.ok { ty := .Keyword .Let, position := { line := 1, start := 0, endPos := 3 } },
       .ok { ty := .Identifier ['x'], position := { line := 1, start := 4, endPos := 5 } },
       .ok { ty := .Equal, position := { line := 1, start := 6, endPos := 7 } },
       .ok { ty := .Number (3.14 : ℚ), position := { line := 1, start := 8, endPos := 12 } },
       .ok { ty := .Semicolon, position := { line := 1, start := 12, endPos := 13 } },
       .ok { ty := .Eof, position := { line := 1, start := 13, endPos := 13 } }] ∧
    lexer "3.".toList =
      [.ok { ty := .Number (3 : ℚ), position := { line := 1, start := 0, endPos := 1 } },
       .ok { ty := .Dot, position := { line := 1, start := 1, endPos := 2 } },
       .ok { ty := .Eof, position := { line := 1, start := 2, endPos := 2 } }] := by
  constructor
  · have h : decimalValue ['3', '.', '1', '4'] = (3.14 : ℚ) := by
      unfold decimalValue
      dsimp only
      rw [show List.takeWhile (fun c => c != '.') ['3', '.', '1', '4'] = ['3']
          from by decide,
        show (List.dropWhile (fun c => c != '.') ['3', '.', '1', '4']).drop 1 =
          ['1', '4'] from by decide,
        show List.foldl (fun a c => 10 * a + (c.toNat - '0'.toNat)) 0 ['3'] = 3
          from by decide,
        show List.foldl (fun a c => 10 * a + (c.toNat - '0'.toNat)) 0 ['1', '4'] =
          14 from by decide]
      norm_num
    rw [← h]
    rfl
  · have h : decimalValue ['3'] = (3 : ℚ) := by
      unfold decimalValue
      dsimp only
      rw [show List.takeWhile (fun c => c != '.') ['3'] = ['3'] from by decide,
        show (List.dropWhile (fun c => c != '.') ['3']).drop 1 = ([] : List Char)
          from by decide,
        show List.foldl (fun a c => 10 * a + (c.toNat - '0'.toNat)) 0 ['3'] = 3
          from by decide]
      norm_num
    rw [← h]
    rfl

/-- C1.  The position record does *not* behave as claimed on non-ASCII
input or multi-line tokens, because `current` counts characters while
the claim (and the slicing code) treats `start`/`end` as byte offsets,
and because `line` is read after consumption rather than before
dispatch.  First failing input: `U+00A0` (two UTF-8 bytes of leading
whitespace) followed by `+`: the `Plus` token records `start = 1`,
`end = 2`, but the byte offset of `+` is 2 (`utf8ByteIdx _ 1 = 2`), so
the byte range `[1, 2)` does not slice out the lexeme — byte 1 is not
even a character boundary.  Second failing input: `"a\nb"` (a string
literal containing a newline): the token's `line` is 2, the line after
consumption, not the line 1 at `start`. -/
theorem C1_position_metadata :
    (tokens (init [Char.ofNat 0xA0, '+']) =
      [.ok { ty := .Plus, position := { line := 1, start := 1, endPos := 2 } },
       .ok { ty := .Eof, position := { line := 1, start := 2, endPos := 2 } }] ∧
      utf8ByteIdx [Char.ofNat 0xA0, '+'] 1 = 2 ∧
      isCharBoundary [Char.ofNat 0xA0, '+'] 1 = false) ∧
    (tokens (init "\"a\nb\"".toList) =
      [.ok { ty := .String ['a', '\n', 'b'],
             position := { line := 2, start := 0, endPos := 5 } },
       .ok { ty := .Eof, position := { line := 2, start := 5, endPos := 5 } }] ∧
      (init "\"a\nb\"".toList).line = 1) := by
  exact ⟨⟨by decide, by decide, by decide⟩, ⟨by decide, by decide⟩⟩

/-- C5.  `Lexer::scan_token` *can* panic: dispatch selects number
scanning for any Unicode-numeric character, and for input `"٣"`
(U+0663, Arabic-Indic digit three, two UTF-8 bytes) the scan consumes
exactly one character (`start = 0`, `end = 0`), so
`&self.source[start..=end]` slices the byte range `[0, 1)` — but byte 1
is not a character boundary of the two-byte encoding, so the slice
panics (and even at a boundary, `"٣".parse::<f64>()` would fail,
panicking in `unwrap`). -/
theorem C5_number_panic :
    is_numeric (Char.ofNat 0x663) = true ∧
    Char.ofNat 0x663 ∉ dispatchChars ∧
    (number 0 ⟨[Char.ofNat 0x663], 1, 1, false⟩).2.pos = 1 ∧
    utf8Len (Char.ofNat 0x663) = 2 ∧
    isCharBoundary [Char.ofNat 0x663] 1 = false := by
  exact ⟨by decide, by decide, by decide, by decide, by decide⟩

/-! ### Item signatures: token types and error kinds, ignoring positions -/

/-- The kind of a `SyntaxError`, forgetting spans and the source copy. -/
inductive ErrSig where
  | unexpectedChar (c : Char)
  | untermString
  | untermBlock
deriving DecidableEq, Repr

/-- Forget an error's span and source copy. -/
def errSig : SyntaxError → ErrSig
  | .UnexpectedCharacter _ _ c => .unexpectedChar c
  | .UnterminatedString _ _ => .untermString
  | .UnterminatedBlockComment _ _ => .untermBlock

/-- The signature of an item: its token type (with payload) or error
kind, ignoring positions. -/
def itemSig : Except SyntaxError Token → Except ErrSig TokenType
  | .ok t => .ok t.ty
  | .error e => .error (errSig e)

/-- Signatures of a whole item list. -/
def itemSigs (l : List (Except SyntaxError Token)) :
    List (Except ErrSig TokenType) :=
  l.map itemSig

/-- Signature of a dispatch result (no position yet). -/
def excSig : Except SyntaxError TokenType → Except ErrSig TokenType
  | .ok ty => .ok ty
  | .error e => .error (errSig e)

/-- Whether a signature is a successfully scanned comment. -/
def sigIsComment : Except ErrSig TokenType → Bool
  | .ok .Comment => true
  | _ => false

/-- C4's general insertion statement is false as claimed: inserting the
balanced block comment `/* x */` between the `Slash` and `Number` tokens
of `"1 / 2"` (immediately after the `/`) turns `//*` into a line-comment
opener which swallows the rest of the line, changing the emitted
token-type sequence from `1, /, 2, Eof` to `1, Eof`. -/
theorem C4_counterexample :
    "1 //* x */ 2".toList =
      "1 /".toList ++ "/* x */".toList ++ " 2".toList ∧
    itemSigs (lexer "1 / 2".toList) =
      [.ok (.Number (decimalValue ['1'])), .ok .Slash,
       .ok (.Number (decimalValue ['2'])), .ok .Eof] ∧
    itemSigs (lexer "1 //* x */ 2".toList) =
      [.ok (.Number (decimalValue ['1'])), .ok .Eof] ∧
    itemSigs (lexer "1 //* x */ 2".toList) ≠ itemSigs (lexer "1 / 2".toList) := by
  refine ⟨by decide, rfl, rfl, fun h => ?_⟩
  rw [show itemSigs (lexer "1 //* x */ 2".toList) =
      [.ok (.Number (decimalValue ['1'])), .ok .Eof] from rfl,
    show itemSigs (lexer "1 / 2".toList) =
      [.ok (.Number (decimalValue ['1'])), .ok .Slash,
       .ok (.Number (decimalValue ['2'])), .ok .Eof] from rfl] at h
  exact absurd h (by simp)

/-! ### A position-free mirror of the scanner

`dispatchP`, `scanCoreP` and `scanP` compute the item signature, the
number of characters consumed, and the updated `at_eof` flag as pure
functions of the remaining input; `scan_token_factor` proves that
`scan_token` projects onto them.  All comment-transparency reasoning
happens at this level. -/

/-- Pure mirror of `scanDispatch`: given the dispatched character `c`
and the input `l` remaining after it, return the item signature and the
number of characters of `l` consumed. -/
def dispatchP (c : Char) (l : List Char) : Except ErrSig TokenType × Nat :=
  match c with
  | '(' => (.ok .LeftParen, 0)
  | ')' => (.ok .RightParen, 0)
  | '{' => (.ok .LeftBrace, 0)
  | '}' => (.ok .RightBrace, 0)
  | ',' => (.ok .Comma, 0)
  | ';' => (.ok .Semicolon, 0)
  | '.' => (.ok .Dot, 0)
  | '-' => (.ok .Minus, 0)
  | '+' => (.ok .Plus, 0)
  | '*' => (.ok .Star, 0)
  | '/' =>
    match l with
    | '/' :: _ =>
      let t := l.tail
      if t.head? = some '\n' ∨ t = [] then (.ok .Comment, 1)
      else
        let body := countWhile (fun ch => ch != '\n') t
        (.ok .Comment, 1 + body + (if body < t.length then 1 else 0))
    | '*' :: l2 =>
      let r := bcSteps 1 l2
      if r.2 > 0 then (.error .untermBlock, 1 + r.1)
      else (.ok .Comment, 1 + r.1)
    | _ => (.ok .Slash, 0)
  | '!' =>
    match l with
    | '=' :: _ => (.ok .BangEq, 1)
    | _ => (.ok .Bang, 0)
  | '=' =>
    match l with
    | '=' :: _ => (.ok .EqualEq, 1)
    | _ => (.ok .Equal, 0)
  | '>' =>
    match l with
    | '=' :: _ => (.ok .GreaterEq, 1)
    | _ => (.ok .Greater, 0)
  | '<' =>
    match l with
    | '=' :: _ => (.ok .LessEq, 1)
    | _ => (.ok .Less, 0)
  | '"' =>
    let n := countWhile (fun ch => ch != '"') l
    match l.drop n with
    | [] => (.error .untermString, n)
    | _ :: _ => (.ok (.String (l.take n)), n + 1)
  | ch =>
    if is_numeric ch then
      let n1 := countWhile is_numeric l
      let len :=
        match l.drop n1 with
        | '.' :: rest =>
          if (rest.head?.map is_numeric).getD false then
            n1 + 1 + countWhile is_numeric (l.drop (n1 + 1))
          else n1
        | _ => n1
      (.ok (.Number (decimalValue (ch :: l.take len))), len)
    else if is_alphabetic ch then
      let n := countWhile (fun c2 => is_alphanumeric c2 || c2 == '_') l
      let lit := ch :: l.take n
      match Keyword.from_str lit with
      | some kw => (.ok (.Keyword kw), n)
      | none => (.ok (.Identifier lit), n)
    else (.error (.unexpectedChar ch), 0)

/-- Pure mirror of a `scan_token` call after whitespace skipping, on the
post-skip remaining input. -/
def scanCoreP (D : List Char) (e : Bool) :
    Option (Except ErrSig TokenType) × Nat × Bool :=
  match D with
  | [] => if e then (none, 0, e) else (some (.ok .Eof), 0, true)
  | c :: D' =>
    let r := dispatchP c D'
    (some r.1, 1 + r.2, e)

/-- Pure mirror of a whole `scan_token` call: item signature, number of
characters consumed (whitespace included), updated `at_eof` flag. -/
def scanP (l : List Char) (e : Bool) :
    Option (Except ErrSig TokenType) × Nat × Bool :=
  let w := countWhile is_whitespace l
  let r := scanCoreP (l.drop w) e
  (r.1, w + r.2.1, r.2.2)

/-- Pure scanner stream (signatures only), with fuel. -/
def streamP : Nat → List Char → Bool → List (Except ErrSig TokenType)
  | 0, _, _ => []
  | fuel + 1, l, e =>
    match scanP l e with
    | (none, _, _) => []
    | (some r, n, e') => r :: streamP fuel (l.drop n) e'

/-- The filtered (externally observable) pure signature stream. -/
def filteredP (l : List Char) (e : Bool) : List (Except ErrSig TokenType) :=
  (streamP (l.length + 2) l e).filter (fun r => !sigIsComment r)

/-- The scanner state after `k` pulls of `scan_token`. -/
def scanIter : Nat → LexState → LexState
  | 0, st => st
  | k + 1, st => scanIter k (scan_token st).2

/-- Pure mirror of `scanIter`: total characters consumed and the
`at_eof` flag after `k` pulls. -/
def scanIterP : Nat → List Char → Bool → Nat × Bool
  | 0, _, e => (0, e)
  | k + 1, l, e =>
    let r := scanP l e
    let t := scanIterP k (l.drop r.2.1) r.2.2
    (r.2.1 + t.1, t.2)

/-- A well-formed comment, as inserted text: a balanced block comment
(the loop on its interior reaches nesting 0 exactly at its end) or a
newline-terminated line comment. -/
def wfComment (C : List Char) : Prop :=
  (∃ body, C = '/' :: '*' :: body ∧ bcSteps 1 body = (body.length, 0)) ∨
  (∃ body, C = '/' :: '/' :: body ++ ['\n'] ∧ '\n' ∉ body)

/-- Evaluation of `dispatchP` on a character with no dispatch arm of
its own. -/
theorem dispatchP_wildcard (c : Char) (l : List Char) (h : c ∉ dispatchChars) :
    dispatchP c l =
      if is_numeric c then
        (.ok (.Number (decimalValue (c :: l.take
          (match l.drop (countWhile is_numeric l) with
           | '.' :: rest =>
             if (rest.head?.map is_numeric).getD false then
               countWhile is_numeric l + 1 +
                 countWhile is_numeric (l.drop (countWhile is_numeric l + 1))
             else countWhile is_numeric l
           | _ => countWhile is_numeric l)))),
          (match l.drop (countWhile is_numeric l) with
           | '.' :: rest =>
             if (rest.head?.map is_numeric).getD false then
               countWhile is_numeric l + 1 +
                 countWhile is_numeric (l.drop (countWhile is_numeric l + 1))
             else countWhile is_numeric l
           | _ => countWhile is_numeric l))
      else if is_alphabetic c then
        (match Keyword.from_str
            (c :: l.take (countWhile (fun c2 => is_alphanumeric c2 || c2 == '_') l)) with
         | some kw => (.ok (.Keyword kw),
             countWhile (fun c2 => is_alphanumeric c2 || c2 == '_') l)
         | none => (.ok (.Identifier
             (c :: l.take (countWhile (fun c2 => is_alphanumeric c2 || c2 == '_') l))),
             countWhile (fun c2 => is_alphanumeric c2 || c2 == '_') l))
      else (.error (.unexpectedChar c), 0) := by
  unfold dispatchP
  split <;> first
    | exact absurd h (by decide)
    | rfl

/-- Evaluation of `dispatchP` on a line comment head. -/
theorem dispatchP_lineComment (tl : List Char) :
    dispatchP '/' ('/' :: tl) =
      if tl.head? = some '\n' ∨ tl = [] then (.ok .Comment, 1)
      else (.ok .Comment, 1 + countWhile (fun ch => ch != '\n') tl +
        (if countWhile (fun ch => ch != '\n') tl < tl.length then 1 else 0)) := rfl

/-- Evaluation of `dispatchP` on a block comment head. -/
theorem dispatchP_blockComment (tl : List Char) :
    dispatchP '/' ('*' :: tl) =
      if (bcSteps 1 tl).2 > 0 then (.error .untermBlock, 1 + (bcSteps 1 tl).1)
      else (.ok .Comment, 1 + (bcSteps 1 tl).1) := rfl

/-- Evaluation of `dispatchP` after `/` when no comment follows. -/
theorem dispatchP_slash_cons (c2 : Char) (l2 : List Char)
    (h1 : c2 ≠ '/') (h2 : c2 ≠ '*') :
    dispatchP '/' (c2 :: l2) = (.ok .Slash, 0) := by
  unfold dispatchP
  split
  · rename_i heq; exact absurd heq (by decide)
  · rename_i heq; exact absurd heq (by decide)
  · rename_i heq; exact absurd heq (by decide)
  · rename_i heq; exact absurd heq (by decide)
  · rename_i heq; exact absurd heq (by decide)
  · rename_i heq; exact absurd heq (by decide)
  · rename_i heq; exact absurd heq (by decide)
  · rename_i heq; exact absurd heq (by decide)
  · rename_i heq; exact absurd heq (by decide)
  · rename_i heq; exact absurd heq (by decide)
  · split
    · rename_i t heq2
      injection heq2 with hx _
      exact absurd hx h1
    · rename_i t heq2
      injection heq2 with hx _
      exact absurd hx h2
    · rfl
  · rename_i heq; exact absurd heq (by decide)
  · rename_i heq; exact absurd heq (by decide)
  · rename_i heq; exact absurd heq (by decide)
  · rename_i heq; exact absurd heq (by decide)
  · rename_i heq; exact absurd heq (by decide)
  · rename_i e1 e2 e3 e4 e5 e6; exact absurd rfl e1

/-- Evaluation of `dispatchP` after `!` not followed by `=`. -/
theorem dispatchP_bang_cons (c2 : Char) (l2 : List Char) (h : c2 ≠ '=') :
    dispatchP '!' (c2 :: l2) = (.ok .Bang, 0) := by
  unfold dispatchP
  split
  · rename_i heq; exact absurd heq (by decide)
  · rename_i heq; exact absurd heq (by decide)
  · rename_i heq; exact absurd heq (by decide)
  · rename_i heq; exact absurd heq (by decide)
  · rename_i heq; exact absurd heq (by decide)
  · rename_i heq; exact absurd heq (by decide)
  · rename_i heq; exact absurd heq (by decide)
  · rename_i heq; exact absurd heq (by decide)
  · rename_i heq; exact absurd heq (by decide)
  · rename_i heq; exact absurd heq (by decide)
  · rename_i heq; exact absurd heq (by decide)
  · split
    · rename_i t heq2
      injection heq2 with hx _
      exact absurd hx h
    · rfl
  · rename_i heq; exact absurd heq (by decide)
  · rename_i heq; exact absurd heq (by decide)
  · rename_i heq; exact absurd heq (by decide)
  · rename_i heq; exact absurd heq (by decide)
  · rename_i e1 e2 e3 e4 e5; exact absurd rfl e1

/-- Evaluation of `dispatchP` after `=` not followed by `=`. -/
theorem dispatchP_equal_cons (c2 : Char) (l2 : List Char) (h : c2 ≠ '=') :
    dispatchP '=' (c2 :: l2) = (.ok .Equal, 0) := by
  unfold dispatchP
  split
  · rename_i heq; exact absurd heq (by decide)
  · rename_i heq; exact absurd heq (by decide)
  · rename_i heq; exact absurd heq (by decide)
  · rename_i heq; exact absurd heq (by decide)
  · rename_i heq; exact absurd heq (by decide)
  · rename_i heq; exact absurd heq (by decide)
  · rename_i heq; exact absurd heq (by decide)
  · rename_i heq; exact absurd heq (by decide)
  · rename_i heq; exact absurd heq (by decide)
  · rename_i heq; exact absurd heq (by decide)
  · rename_i heq; exact absurd heq (by decide)
  · rename_i heq; exact absurd heq (by decide)
  · split
    · rename_i t heq2
      injection heq2 with hx _
      exact absurd hx h
    · rfl
  · rename_i heq; exact absurd heq (by decide)
  · rename_i heq; exact absurd heq (by decide)
  · rename_i heq; exact absurd heq (by decide)
  · rename_i e1 e2 e3 e4; exact absurd rfl e1

/-- Evaluation of `dispatchP` after `>` not followed by `=`. -/
theorem dispatchP_greater_cons (c2 : Char) (l2 : List Char) (h : c2 ≠ '=') :
    dispatchP '>' (c2 :: l2) = (.ok .Greater, 0) := by
  unfold dispatchP
  split
  · rename_i heq; exact absurd heq (by decide)
  · rename_i heq; exact absurd heq (by decide)
  · rename_i heq; exact absurd heq (by decide)
  · rename_i heq; exact absurd heq (by decide)
  · rename_i heq; exact absurd heq (by decide)
  · rename_i heq; exact absurd heq (by decide)
  · rename_i heq; exact absurd heq (by decide)
  · rename_i heq; exact absurd heq (by decide)
  · rename_i heq; exact absurd heq (by decide)
  · rename_i heq; exact absurd heq (by decide)
  · rename_i heq; exact absurd heq (by decide)
  · rename_i heq; exact absurd heq (by decide)
  · rename_i heq; exact absurd heq (by decide)
  · split
    · rename_i t heq2
      injection heq2 with hx _
      exact absurd hx h
    · rfl
  · rename_i heq; exact absurd heq (by decide)
  · rename_i heq; exact absurd heq (by decide)
  · rename_i e1 e2 e3; exact absurd rfl e1

/-- Evaluation of `dispatchP` after `<` not followed by `=`. -/
theorem dispatchP_less_cons (c2 : Char) (l2 : List Char) (h : c2 ≠ '=') :
    dispatchP '<' (c2 :: l2) = (.ok .Less, 0) := by
  unfold dispatchP
  split
  · rename_i heq; exact absurd heq (by decide)
  · rename_i heq; exact absurd heq (by decide)
  · rename_i heq; exact absurd heq (by decide)
  · rename_i heq; exact absurd heq (by decide)
  · rename_i heq; exact absurd heq (by decide)
  · rename_i heq; exact absurd heq (by decide)
  · rename_i heq; exact absurd heq (by decide)
  · rename_i heq; exact absurd heq (by decide)
  · rename_i heq; exact absurd heq (by decide)
  · rename_i heq; exact absurd heq (by decide)
  · rename_i heq; exact absurd heq (by decide)
  · rename_i heq; exact absurd heq (by decide)
  · rename_i heq; exact absurd heq (by decide)
  · rename_i heq; exact absurd heq (by decide)
  · split
    · rename_i t heq2
      injection heq2 with hx _
      exact absurd hx h
    · rfl
  · rename_i heq; exact absurd heq (by decide)
  · rename_i e1 e2; exact absurd rfl e1

/-- An `advance` that returns no character was at the end of input. -/
theorem advance_fst_none {st : LexState} (h : (advance st).1 = none) :
    rem st = [] := by
  cases hl : rem st with
  | nil => rfl
  | cons c r =>
    rw [advance_of_rem_cons hl] at h
    simp at h

/-- An `advance` that returns a character was looking at it. -/
theorem advance_fst_some {st : LexState} {a : Char}
    (h : (advance st).1 = some a) : ∃ t, rem st = a :: t := by
  cases hl : rem st with
  | nil =>
    rw [advance_of_rem_nil hl] at h
    simp at h
  | cons c r =>
    rw [advance_of_rem_cons hl] at h
    simp at h
    exact ⟨r, by rw [h]⟩

/-- Evaluation of `dispatchP` on a string head. -/
theorem dispatchP_string (l : List Char) :
    dispatchP '"' l =
      match l.drop (countWhile (fun ch => ch != '"') l) with
      | [] => (.error .untermString, countWhile (fun ch => ch != '"') l)
      | _ :: _ =>
        (.ok (.String (l.take (countWhile (fun ch => ch != '"') l))),
          countWhile (fun ch => ch != '"') l + 1) := rfl

/-- The dispatch of `scan_token` projects onto the pure mirror
`dispatchP`: same item signature, the final cursor drops exactly the
consumed count, and `at_eof` is untouched.  The hypothesis states that
the dispatched character `c` sits at offset `start` with the cursor just
past it, which `scan_token` guarantees at the call site. -/
theorem scanDispatch_factor (c : Char) (start : Nat) (st : LexState)
    (hsrc : st.source.drop start = c :: rem st) :
    excSig (scanDispatch c start st).1 = (dispatchP c (rem st)).1 ∧
    rem (scanDispatch c start st).2 = (rem st).drop (dispatchP c (rem st)).2 ∧
    (scanDispatch c start st).2.at_eof = st.at_eof := by
  have hsrc1 : st.source.drop (start + 1) = rem st := by
    rw [← List.tail_drop, hsrc, List.tail_cons]
  unfold scanDispatch
  split
  · exact ⟨rfl, rfl, rfl⟩
  · exact ⟨rfl, rfl, rfl⟩
  · exact ⟨rfl, rfl, rfl⟩
  · exact ⟨rfl, rfl, rfl⟩
  · exact ⟨rfl, rfl, rfl⟩
  · exact ⟨rfl, rfl, rfl⟩
  · exact ⟨rfl, rfl, rfl⟩
  · exact ⟨rfl, rfl, rfl⟩
  · exact ⟨rfl, rfl, rfl⟩
  · exact ⟨rfl, rfl, rfl⟩
  · -- '/'
    split
    · -- line comment
      rename_i tl heq
      rw [heq, dispatchP_lineComment]
      unfold lineComment
      dsimp only
      rw [heq, List.tail_cons]
      split_ifs with hc h2 <;>
        exact ⟨rfl, by rw [rem_advanceBy, heq], by simp⟩
    · -- block comment
      rename_i tl heq
      rw [heq, dispatchP_blockComment]
      unfold block_comment
      dsimp only
      have h1 : rem (advance st).2 = tl := by rw [rem_advance, heq, List.tail_cons]
      rw [h1]
      obtain ⟨hs1, he1, _⟩ := advance_state st
      split_ifs with hc <;>
        exact ⟨rfl, by rw [rem_advanceBy, h1, Nat.add_comm 1, List.drop_succ_cons],
          by rw [advanceBy_at_eof, he1]⟩
    · -- slash
      rename_i x h1 h2
      cases hl : rem st with
      | nil => exact ⟨rfl, rfl, rfl⟩
      | cons c2 l2 =>
        have hc1 : c2 ≠ '/' := fun h => h1 l2 (by rw [hl, h])
        have hc2 : c2 ≠ '*' := fun h => h2 l2 (by rw [hl, h])
        rw [dispatchP_slash_cons c2 l2 hc1 hc2]
        exact ⟨rfl, rfl, rfl⟩
  · -- '!'
    dsimp only
    unfold twoCharOp
    split
    · rename_i tl heq
      rw [heq]
      refine ⟨rfl, ?_, ?_⟩
      · show rem (advance st).2 = ('=' :: tl).drop (dispatchP '!' ('=' :: tl)).2
        rw [rem_advance, heq]
        rfl
      · exact (advance_state st).2.1
    · rename_i x hexc
      dsimp only
      cases hl : rem st with
      | nil => exact ⟨rfl, rfl, rfl⟩
      | cons c2 l2 =>
        have hc : c2 ≠ '=' := fun h => hexc l2 (by rw [hl, h])
        rw [dispatchP_bang_cons c2 l2 hc]
        exact ⟨rfl, rfl, rfl⟩
  · -- '='
    dsimp only
    unfold twoCharOp
    split
    · rename_i tl heq
      rw [heq]
      refine ⟨rfl, ?_, ?_⟩
      · show rem (advance st).2 = ('=' :: tl).drop (dispatchP '=' ('=' :: tl)).2
        rw [rem_advance, heq]
        rfl
      · exact (advance_state st).2.1
    · rename_i x hexc
      dsimp only
      cases hl : rem st with
      | nil => exact ⟨rfl, rfl, rfl⟩
      | cons c2 l2 =>
        have hc : c2 ≠ '=' := fun h => hexc l2 (by rw [hl, h])
        rw [dispatchP_equal_cons c2 l2 hc]
        exact ⟨rfl, rfl, rfl⟩
  · -- '>'
    dsimp only
    unfold twoCharOp
    split
    · rename_i tl heq
      rw [heq]
      refine ⟨rfl, ?_, ?_⟩
      · show rem (advance st).2 = ('=' :: tl).drop (dispatchP '>' ('=' :: tl)).2
        rw [rem_advance, heq]
        rfl
      · exact (advance_state st).2.1
    · rename_i x hexc
      dsimp only
      cases hl : rem st with
      | nil => exact ⟨rfl, rfl, rfl⟩
      | cons c2 l2 =>
        have hc : c2 ≠ '=' := fun h => hexc l2 (by rw [hl, h])
        rw [dispatchP_greater_cons c2 l2 hc]
        exact ⟨rfl, rfl, rfl⟩
  · -- '<'
    dsimp only
    unfold twoCharOp
    split
    · rename_i tl heq
      rw [heq]
      refine ⟨rfl, ?_, ?_⟩
      · show rem (advance st).2 = ('=' :: tl).drop (dispatchP '<' ('=' :: tl)).2
        rw [rem_advance, heq]
        rfl
      · exact (advance_state st).2.1
    · rename_i x hexc
      dsimp only
      cases hl : rem st with
      | nil => exact ⟨rfl, rfl, rfl⟩
      | cons c2 l2 =>
        have hc : c2 ≠ '=' := fun h => hexc l2 (by rw [hl, h])
        rw [dispatchP_less_cons c2 l2 hc]
        exact ⟨rfl, rfl, rfl⟩
  · -- '"'
    unfold string advance_while
    dsimp only
    rw [dispatchP_string]
    split
    · -- unterminated
      rename_i st2 heq
      have h0 : rem (advanceBy st (countWhile (fun ch => ch != '"') (rem st))) = [] :=
        advance_fst_none (congrArg Prod.fst heq)
      have hst2 : st2 = (advance (advanceBy st (countWhile (fun ch => ch != '"') (rem st)))).2 :=
        (congrArg Prod.snd heq).symm
      have hd : (rem st).drop (countWhile (fun ch => ch != '"') (rem st)) = [] := by
        rw [← rem_advanceBy]; exact h0
      rw [hd]
      dsimp only
      refine ⟨rfl, ?_, ?_⟩
      · rw [hst2, rem_advance, rem_advanceBy, hd]
        rfl
      · rw [hst2, (advance_state _).2.1, advanceBy_at_eof]
    · -- closed string
      rename_i a st2 heq
      have hst2 : st2 = (advance (advanceBy st (countWhile (fun ch => ch != '"') (rem st)))).2 :=
        (congrArg Prod.snd heq).symm
      obtain ⟨t2, ht2⟩ := advance_fst_some (congrArg Prod.fst heq)
      have hd : (rem st).drop (countWhile (fun ch => ch != '"') (rem st)) = a :: t2 := by
        rw [← rem_advanceBy]; exact ht2
      rw [hd]
      dsimp only
      refine ⟨?_, ?_, ?_⟩
      · rw [hst2, (advance_state _).1, advanceBy_source, hsrc1]
        rfl
      · rw [hst2, rem_advance, rem_advanceBy, ← List.tail_drop]
      · rw [hst2, (advance_state _).2.1, advanceBy_at_eof]
  · -- wildcard
    rename_i h1 h2 h3 h4 h5 h6 h7 h8 h9 h10 h11 h12 h13 h14 h15 h16
    have hnd : c ∉ dispatchChars := by
      intro hm
      simp only [dispatchChars, List.mem_cons, List.not_mem_nil, or_false] at hm
      rcases hm with h|h|h|h|h|h|h|h|h|h|h|h|h|h|h|h
      exacts [h1 h, h2 h, h3 h, h4 h, h5 h, h6 h, h7 h, h8 h, h9 h, h10 h,
        h11 h, h12 h, h13 h, h14 h, h15 h, h16 h]
    rw [dispatchP_wildcard c (rem st) hnd]
    split_ifs with hnum halpha
    · -- number
      dsimp only
      unfold number advance_while
      dsimp only
      rw [rem_advanceBy]
      split
      · -- scanned input has a dot after the digit run
        rename_i rest heq
        split_ifs with hfrac
        · -- fractional part taken
          have h2 : rem (advance (advanceBy st (countWhile is_numeric (rem st)))).2 = rest := by
            rw [rem_advance, rem_advanceBy, heq, List.tail_cons]
          have h2' : (rem st).drop (countWhile is_numeric (rem st) + 1) = rest := by
            rw [← List.tail_drop, heq, List.tail_cons]
          rw [h2, h2']
          refine ⟨?_, ?_, ?_⟩
          · dsimp only
            simp only [advanceBy_source]
            rw [(advance_state _).1]
            simp only [advanceBy_source]
            rw [hsrc, List.take_succ_cons]
            rfl
          · dsimp only
            rw [rem_advanceBy, h2, ← List.drop_drop, h2']
          · dsimp only
            rw [advanceBy_at_eof, (advance_state _).2.1, advanceBy_at_eof]
        · -- dot not followed by a digit
          refine ⟨?_, ?_, ?_⟩
          · dsimp only
            simp only [advanceBy_source]
            rw [hsrc, List.take_succ_cons]
            rfl
          · dsimp only
            rw [rem_advanceBy]
          · dsimp only
            rw [advanceBy_at_eof]
      · -- no dot after the digit run
        refine ⟨?_, ?_, ?_⟩
        · dsimp only
          simp only [advanceBy_source]
          rw [hsrc, List.take_succ_cons]
          rfl
        · dsimp only
          rw [rem_advanceBy]
        · dsimp only
          rw [advanceBy_at_eof]
    · -- identifier
      dsimp only
      unfold identifier advance_while
      dsimp only
      simp only [advanceBy_source]
      rw [hsrc, List.take_succ_cons]
      split
      · exact ⟨rfl, by rw [rem_advanceBy], by rw [advanceBy_at_eof]⟩
      · exact ⟨rfl, by rw [rem_advanceBy], by rw [advanceBy_at_eof]⟩
    · exact ⟨rfl, rfl, rfl⟩

/-- A whole `scan_token` call projects onto the pure mirror `scanP`:
same item signature, the cursor drops exactly the consumed count, and
the `at_eof` flag evolves as in the mirror. -/
theorem scan_token_factor (st : LexState) :
    (scan_token st).1.map itemSig = (scanP (rem st) st.at_eof).1 ∧
    rem (scan_token st).2 = (rem st).drop (scanP (rem st) st.at_eof).2.1 ∧
    (scan_token st).2.at_eof = (scanP (rem st) st.at_eof).2.2 := by
  unfold scan_token scanP scanCoreP advance_while
  dsimp only
  split
  · -- advance found nothing: whitespace exhausted the input
    rename_i st1 heq
    have hst1 : st1 = (advance (advanceBy st (countWhile is_whitespace (rem st)))).2 :=
      (congrArg Prod.snd heq).symm
    have h0 : rem (advanceBy st (countWhile is_whitespace (rem st))) = [] :=
      advance_fst_none (congrArg Prod.fst heq)
    have hd : (rem st).drop (countWhile is_whitespace (rem st)) = [] := by
      rw [← rem_advanceBy]; exact h0
    rw [hd]
    dsimp only
    have hst1' : st1 = advanceBy st (countWhile is_whitespace (rem st)) := by
      rw [hst1, advance_of_rem_nil h0]
    rw [hst1', advanceBy_at_eof]
    split_ifs with he
    · exact ⟨rfl,
        (rem_advanceBy st (countWhile is_whitespace (rem st)) :
          rem (advanceBy st (countWhile is_whitespace (rem st))) =
            (rem st).drop (countWhile is_whitespace (rem st) + 0)),
        rfl⟩
    · refine ⟨rfl, ?_, rfl⟩
      exact (rem_advanceBy st (countWhile is_whitespace (rem st)) :
        rem { advanceBy st (countWhile is_whitespace (rem st)) with at_eof := true } =
          (rem st).drop (countWhile is_whitespace (rem st) + 0))
  · -- advance found the dispatch character
    rename_i c2 st1 heq
    have hst1 : st1 = (advance (advanceBy st (countWhile is_whitespace (rem st)))).2 :=
      (congrArg Prod.snd heq).symm
    obtain ⟨D, hD⟩ := advance_fst_some (congrArg Prod.fst heq)
    have hd : (rem st).drop (countWhile is_whitespace (rem st)) = c2 :: D := by
      rw [← rem_advanceBy]; exact hD
    rw [hd]
    dsimp only
    have hrem1 : rem st1 = D := by
      rw [hst1, rem_advance, hD, List.tail_cons]
    have hsrc2 : st1.source.drop ((advanceBy st (countWhile is_whitespace (rem st))).pos) =
        c2 :: rem st1 := by
      rw [hst1, (advance_state _).1, advanceBy_source, rem_advance, hD, List.tail_cons]
      exact hD
    obtain ⟨hf1, hf2, hf3⟩ := scanDispatch_factor c2
      ((advanceBy st (countWhile is_whitespace (rem st))).pos) st1 hsrc2
    rw [hrem1] at hf1 hf2
    have heof1 : st1.at_eof = st.at_eof := by
      rw [hst1, (advance_state _).2.1, advanceBy_at_eof]
    have hdrop : ∀ n : Nat,
        (rem st).drop (countWhile is_whitespace (rem st) + (1 + n)) = D.drop n := by
      intro n
      rw [← List.drop_drop, hd, ← List.drop_drop, List.drop_one, List.tail_cons]
    split
    · -- dispatch succeeded
      rename_i ty st2 heq2
      have h1 : (scanDispatch c2 ((advanceBy st (countWhile is_whitespace (rem st))).pos) st1).1
          = .ok ty := congrArg Prod.fst heq2
      have h2 : st2 = (scanDispatch c2
          ((advanceBy st (countWhile is_whitespace (rem st))).pos) st1).2 :=
        (congrArg Prod.snd heq2).symm
      rw [h1] at hf1
      refine ⟨?_, ?_, ?_⟩
      · exact congrArg some hf1
      · rw [h2, hf2, hdrop]
      · rw [h2, hf3, heof1]
    · -- dispatch failed
      rename_i e st2 heq2
      have h1 : (scanDispatch c2 ((advanceBy st (countWhile is_whitespace (rem st))).pos) st1).1
          = .error e := congrArg Prod.fst heq2
      have h2 : st2 = (scanDispatch c2
          ((advanceBy st (countWhile is_whitespace (rem st))).pos) st1).2 :=
        (congrArg Prod.snd heq2).symm
      rw [h1] at hf1
      refine ⟨?_, ?_, ?_⟩
      · exact congrArg some hf1
      · rw [h2, hf2, hdrop]
      · rw [h2, hf3, heof1]

/-- The fueled item stream projects onto the pure stream. -/
theorem tokensFuel_factor :
    ∀ (fuel : Nat) (st : LexState),
      itemSigs (tokensFuel fuel st) = streamP fuel (rem st) st.at_eof := by
  intro fuel
  induction fuel with
  | zero => intro st; rfl
  | succ fuel ih =>
    intro st
    unfold tokensFuel streamP
    obtain ⟨hf1, hf2, hf3⟩ := scan_token_factor st
    rw [show scanP (rem st) st.at_eof =
      ((scanP (rem st) st.at_eof).1, (scanP (rem st) st.at_eof).2.1,
        (scanP (rem st) st.at_eof).2.2) from rfl]
    cases hs : scan_token st with
    | mk o st' =>
      rw [hs] at hf1 hf2 hf3
      cases o with
      | none =>
        rw [← hf1]
        rfl
      | some r =>
        rw [← hf1]
        dsimp only
        rw [show itemSigs (r :: tokensFuel fuel st') =
          itemSig r :: itemSigs (tokensFuel fuel st') from rfl]
        rw [ih st', hf2, hf3]
        rfl

/-- The comment filter commutes with taking signatures. -/
theorem sigIsComment_itemSig (r : Except SyntaxError Token) :
    sigIsComment (itemSig r) = isCommentItem r := by
  cases r with
  | ok t =>
    cases t with
    | mk ty pos => cases ty <;> rfl
  | error e => rfl

/-- Signatures of a comment-filtered list are the comment-filtered
signatures. -/
theorem itemSigs_filter (l : List (Except SyntaxError Token)) :
    itemSigs (l.filter (fun r => !isCommentItem r)) =
      (itemSigs l).filter (fun r => !sigIsComment r) := by
  induction l with
  | nil => rfl
  | cons r l ih =>
    rw [show itemSigs (r :: l) = itemSig r :: itemSigs l from rfl,
      List.filter_cons, List.filter_cons, sigIsComment_itemSig]
    by_cases hc : isCommentItem r
    · rw [hc]
      simpa using ih
    · simp only [Bool.not_eq_true] at hc
      rw [hc]
      simp only [Bool.not_false, if_pos]
      rw [show itemSigs (r :: l.filter fun r => !isCommentItem r) =
        itemSig r :: itemSigs (l.filter fun r => !isCommentItem r) from rfl, ih]

/-- The observable signature stream of the lexer is the filtered pure
stream. -/
theorem itemSigs_lexer (s : List Char) :
    itemSigs (lexer s) = filteredP s false := by
  unfold lexer items filteredP
  rw [itemsFuel_eq_filter, itemSigs_filter]
  rw [show scanBound (init s) = s.length + 2 from by
    unfold scanBound init
    dsimp only
    omega]
  rw [show tokensFuel (s.length + 2) (init s) =
      tokensFuel (s.length + 2) (init s) from rfl]
  rw [tokensFuel_factor]
  rw [show rem (init s) = s from by unfold rem init; exact List.drop_zero s]
  rfl

/-! ### Comment transparency

The lemmas below culminate in `filteredP_insert`: inserting a well-formed
comment at a reachable boundary `q < s.length` whose preceding character
is not `/` leaves the filtered pure stream unchanged. -/

theorem countWhile_prefix_all (p : Char → Bool) :
    ∀ (a z : List Char), a.length ≤ countWhile p (a ++ z) →
      ∀ x ∈ a, p x = true := by
  intro a
  induction a with
  | nil => intro z h x hx; cases hx
  | cons c a2 ih =>
    intro z h x hx
    rw [List.cons_append] at h
    unfold countWhile at h
    by_cases hc : p c = true
    · rw [if_pos hc] at h
      rcases List.mem_cons.mp hx with h1 | h2
      · rw [h1]; exact hc
      · exact ih z (by simpa using h) x h2
    · rw [if_neg hc] at h
      simp at h

theorem countWhile_lt_prefix (p : Char → Bool) :
    ∀ (a z z2 : List Char), countWhile p (a ++ z) < a.length →
      countWhile p (a ++ z2) = countWhile p (a ++ z) := by
  intro a
  induction a with
  | nil => intro z z2 h; simp at h
  | cons c a2 ih =>
    intro z z2 h
    rw [List.cons_append] at h ⊢
    rw [List.cons_append]
    unfold countWhile at h ⊢
    by_cases hc : p c = true
    · rw [if_pos hc] at h ⊢
      rw [if_pos hc]
      simp only [List.length_cons] at h
      rw [ih z z2 (by omega)]
    · rw [if_neg hc] at h ⊢
      rw [if_neg hc]

theorem countWhile_eq_prefix (p : Char → Bool) (a z z2 : List Char)
    (h : countWhile p (a ++ z) = a.length) (c2 : Char) (z3 : List Char)
    (hz2 : z2 = c2 :: z3) (hc2 : p c2 = false) :
    countWhile p (a ++ z2) = countWhile p (a ++ z) := by
  rw [h, hz2, countWhile_append_stop p a c2 z3
    (countWhile_prefix_all p a z (le_of_eq h.symm)) hc2]

theorem bcSteps_zero (l : List Char) : bcSteps 0 l = (0, 0) := by
  unfold bcSteps
  split <;> simp

theorem bcSteps_pos (count : Nat) (l : List Char) (hc : 0 < count)
    (h : (bcSteps count l).2 = 0) : 2 ≤ (bcSteps count l).1 := by
  induction count, l using bcSteps.induct with
  | case1 count =>
    simp only [bcSteps] at h
    omega
  | case2 rest2 => omega
  | case3 count rest2 hcount ih =>
    rw [show bcSteps count ('/' :: '*' :: rest2) =
        ((bcSteps (count + 1) rest2).1 + 2, (bcSteps (count + 1) rest2).2) by
      rw [bcSteps.eq_def]; simp [hcount]]
    simp
  | case4 rest2 => omega
  | case5 count rest2 hcount ih =>
    rw [show bcSteps count ('*' :: '/' :: rest2) =
        ((bcSteps (count - 1) rest2).1 + 2, (bcSteps (count - 1) rest2).2) by
      rw [bcSteps.eq_def]; simp [hcount]]
    simp
  | case6 c rest hx1 hx2 => omega
  | case7 count c rest hx1 hx2 hcount ih =>
    have hstep : bcSteps count (c :: rest) =
        ((bcSteps count rest).1 + 1, (bcSteps count rest).2) := by
      rw [bcSteps.eq_def]
      split
      · rename_i heq; exact absurd heq (by simp)
      · rename_i heq
        injection heq with e1 e2
        exact absurd (hx1 _ e1 e2) id
      · rename_i heq
        injection heq with e1 e2
        exact absurd (hx2 _ e1 e2) id
      · rename_i heq
        injection heq with e1 e2
        subst e1; subst e2
        simp [hcount]
    rw [hstep] at h ⊢
    dsimp only at h ⊢
    have := ih hc h
    omega

theorem bcSteps_prefix :
    ∀ (count : Nat) (a : List Char), 0 < count →
      ∀ (z z2 : List Char) (k : Nat),
        bcSteps count (a ++ z) = (k, 0) → k ≤ a.length →
        bcSteps count (a ++ z2) = (k, 0) := by
  intro count a
  induction count, a using bcSteps.induct with
  | case1 count =>
    intro hc z z2 k hbc hk
    simp only [List.nil_append] at hbc ⊢
    have h1 := congrArg Prod.fst hbc
    have h2 := congrArg Prod.snd hbc
    dsimp only at h1 h2
    have := bcSteps_pos count z hc h2
    simp only [List.length_nil] at hk
    omega
  | case2 rest2 =>
    intro hc; exact absurd hc (by omega)
  | case3 count rest2 hcount ih =>
    intro hc z z2 k hbc hk
    have hstep : ∀ w : List Char, bcSteps count ('/' :: '*' :: (rest2 ++ w)) =
        ((bcSteps (count + 1) (rest2 ++ w)).1 + 2,
          (bcSteps (count + 1) (rest2 ++ w)).2) := by
      intro w
      rw [bcSteps.eq_def]; simp [hcount]
    rw [List.cons_append, List.cons_append] at hbc ⊢
    rw [hstep z] at hbc
    have h1 := congrArg Prod.fst hbc
    have h2 := congrArg Prod.snd hbc
    dsimp only at h1 h2
    simp only [List.length_cons] at hk
    have hrec := ih (by omega) z z2 (k - 2) (Prod.ext (by dsimp only; omega) h2)
      (by omega)
    rw [hstep z2, hrec]
    dsimp only
    rw [show k - 2 + 2 = k from by omega]
  | case4 rest2 =>
    intro hc; exact absurd hc (by omega)
  | case5 count rest2 hcount ih =>
    intro hc z z2 k hbc hk
    have hstep : ∀ w : List Char, bcSteps count ('*' :: '/' :: (rest2 ++ w)) =
        ((bcSteps (count - 1) (rest2 ++ w)).1 + 2,
          (bcSteps (count - 1) (rest2 ++ w)).2) := by
      intro w
      rw [bcSteps.eq_def]; simp [hcount]
    rw [List.cons_append, List.cons_append] at hbc ⊢
    rw [hstep z] at hbc
    have h1 := congrArg Prod.fst hbc
    have h2 := congrArg Prod.snd hbc
    dsimp only at h1 h2
    simp only [List.length_cons] at hk
    by_cases hone : count = 1
    · subst hone
      simp only [Nat.sub_self] at h1 h2 ⊢
      rw [bcSteps_zero] at h1
      rw [hstep z2, Nat.sub_self, bcSteps_zero]
      dsimp only at h1 ⊢
      rw [show k = 2 from by omega]
    · have hrec := ih (by omega) z z2 (k - 2) (Prod.ext (by dsimp only; omega) h2)
        (by omega)
      rw [hstep z2, hrec]
      dsimp only
      rw [show k - 2 + 2 = k from by omega]
  | case6 c rest hx1 hx2 =>
    intro hc; exact absurd hc (by omega)
  | case7 count c rest hx1 hx2 hcount ih =>
    intro hc z z2 k hbc hk
    cases rest with
    | nil =>
      exfalso
      simp only [List.cons_append, List.nil_append] at hbc
      have h2 := congrArg Prod.snd hbc
      have h1 := congrArg Prod.fst hbc
      dsimp only at h1 h2
      have := bcSteps_pos count (c :: z) hc (by rw [hbc])
      simp only [List.length_cons, List.length_nil] at hk
      omega
    | cons b rest3 =>
      have hstep : ∀ w : List Char, bcSteps count (c :: b :: (rest3 ++ w)) =
          ((bcSteps count (b :: (rest3 ++ w))).1 + 1,
            (bcSteps count (b :: (rest3 ++ w))).2) := by
        intro w
        rw [bcSteps.eq_def]
        split
        · rename_i heq; exact absurd heq (by simp)
        · rename_i heq
          injection heq with e1 e2
          injection e2 with e2a e2b
          exact absurd (hx1 rest3 e1 (by rw [e2a])) id
        · rename_i heq
          injection heq with e1 e2
          injection e2 with e2a e2b
          exact absurd (hx2 rest3 e1 (by rw [e2a])) id
        · rename_i heq
          injection heq with e1 e2
          subst e1
          rw [← e2]
          simp [hcount]
      rw [List.cons_append, List.cons_append] at hbc ⊢
      rw [hstep z] at hbc
      have h1 := congrArg Prod.fst hbc
      have h2 := congrArg Prod.snd hbc
      dsimp only at h1 h2
      simp only [List.length_cons] at hk
      have hbcz : bcSteps count ((b :: rest3) ++ z) = (k - 1, 0) := by
        rw [List.cons_append]
        exact Prod.ext (by dsimp only; omega) h2
      have hrec := ih hc z z2 (k - 1) hbcz (by simp only [List.length_cons]; omega)
      have hrec2 : bcSteps count (b :: (rest3 ++ z2)) = (k - 1, 0) := hrec
      rw [hstep z2, hrec2]
      dsimp only
      rw [show k - 1 + 1 = k from by omega]

theorem streamP_succ (n : Nat) (l : List Char) (e : Bool) :
    streamP (n + 1) l e =
      match scanP l e with
      | (none, _, _) => []
      | (some r, m, e2) => r :: streamP n (l.drop m) e2 := rfl

theorem streamP_eq_tokensFuel (fuel : Nat) (l : List Char) (e : Bool) :
    streamP fuel l e = itemSigs (tokensFuel fuel ⟨l, 0, 1, e⟩) := by
  rw [tokensFuel_factor]
  rfl

theorem streamP_congr (f g : Nat) (l : List Char) (e : Bool)
    (hf : l.length + (if e then 0 else 1) < f)
    (hg : l.length + (if e then 0 else 1) < g) :
    streamP f l e = streamP g l e := by
  rw [streamP_eq_tokensFuel, streamP_eq_tokensFuel,
    tokensFuel_congr f g ⟨l, 0, 1, e⟩ hf hg]

theorem scanP_true (l : List Char) : (scanP l true).2.2 = true := by
  unfold scanP scanCoreP
  dsimp only
  split
  · rfl
  · rfl

theorem scanIterP_true (k : Nat) :
    ∀ l : List Char, (scanIterP k l true).2 = true := by
  induction k with
  | zero => intro l; rfl
  | succ k ih =>
    intro l
    unfold scanIterP
    dsimp only
    rw [scanP_true]
    exact ih _

theorem scanP_consumed_pos (l : List Char) (e : Bool)
    (h : (scanP l e).2.2 = false) : 0 < (scanP l e).2.1 := by
  unfold scanP scanCoreP at h ⊢
  dsimp only at h ⊢
  split at h
  · exfalso
    split_ifs at h <;> simp_all
  · dsimp only at h ⊢
    omega

theorem scanP_ws (u : Char) (l : List Char) (e : Bool)
    (hu : is_whitespace u = true) :
    scanP (u :: l) e = ((scanP l e).1, 1 + (scanP l e).2.1, (scanP l e).2.2) := by
  unfold scanP
  dsimp only
  rw [show countWhile is_whitespace (u :: l) = countWhile is_whitespace l + 1 from by
    rw [show countWhile is_whitespace (u :: l) =
      if is_whitespace u = true then countWhile is_whitespace l + 1 else 0 from rfl,
      if_pos hu]]
  rw [show (u :: l).drop (countWhile is_whitespace l + 1) =
    l.drop (countWhile is_whitespace l) from rfl]
  refine Prod.ext rfl (Prod.ext ?_ rfl)
  dsimp only
  omega

theorem filteredP_ws (u : Char) (l : List Char) (e : Bool)
    (hu : is_whitespace u = true) :
    filteredP (u :: l) e = filteredP l e := by
  unfold filteredP
  rw [show (u :: l).length + 2 = (l.length + 2) + 1 from by
    simp only [List.length_cons]]
  rw [show l.length + 2 = (l.length + 1) + 1 from rfl]
  rw [streamP_succ, streamP_succ, scanP_ws u l e hu]
  cases hsc : scanP l e with
  | mk o r2 =>
    cases r2 with
    | mk m e2 =>
      cases o with
      | none => rfl
      | some r =>
        dsimp only
        rw [show (u :: l).drop (1 + m) = l.drop m from by
          rw [Nat.add_comm]; rfl]
        by_cases he2 : e2 = true
        · subst he2
          rw [streamP_congr (l.length + 2) (l.length + 1) (l.drop m) true
            (by show (l.drop m).length + 0 < l.length + 2
                simp only [List.length_drop]; omega)
            (by show (l.drop m).length + 0 < l.length + 1
                simp only [List.length_drop]; omega)]
        · simp only [Bool.not_eq_true] at he2
          subst he2
          have hm : 0 < m := by
            have := scanP_consumed_pos l e
            rw [hsc] at this
            exact this rfl
          have he : e = false := by
            cases e
            · rfl
            · have := scanP_true l
              rw [hsc] at this
              cases this
          subst he
          have hl : 0 < l.length := by
            rcases l with _ | ⟨c0, l0⟩
            · rw [show scanP [] false = (some (.ok .Eof), 0, true) from rfl] at hsc
              injection hsc with a b
              injection b with b1 b2
              cases b2
            · simp
          rw [streamP_congr (l.length + 2) (l.length + 1) (l.drop m) false
            (by show (l.drop m).length + 1 < l.length + 2
                simp only [List.length_drop]; omega)
            (by show (l.drop m).length + 1 < l.length + 1
                simp only [List.length_drop]; omega)]

theorem filteredP_comment_head (C Z : List Char) (hw : wfComment C) :
    filteredP (C ++ Z) false = filteredP Z false := by
  rcases hw with ⟨body, hC, hbc⟩ | ⟨body, hC, hnl⟩
  · subst hC
    have hb2 : bcSteps 1 (body ++ Z) = (body.length, 0) := by
      refine bcSteps_prefix 1 body (by omega) [] Z body.length ?_ (le_refl _)
      rw [List.append_nil]
      exact hbc
    have hd : dispatchP '/' ('*' :: (body ++ Z)) = (.ok .Comment, 1 + body.length) := by
      rw [dispatchP_blockComment, hb2]
      simp
    have hscan : scanP ('/' :: '*' :: (body ++ Z)) false =
        (some (.ok .Comment), 2 + body.length, false) := by
      unfold scanP scanCoreP
      dsimp only
      rw [show countWhile is_whitespace ('/' :: '*' :: (body ++ Z)) = 0 from rfl]
      rw [show ('/' :: '*' :: (body ++ Z)).drop 0 = '/' :: '*' :: (body ++ Z) from rfl]
      dsimp only
      rw [hd]
      refine Prod.ext rfl (Prod.ext ?_ rfl)
      dsimp only
      omega
    have hCZ : ('/' :: '*' :: body) ++ Z = '/' :: '*' :: (body ++ Z) := rfl
    rw [hCZ]
    unfold filteredP
    rw [show ('/' :: '*' :: (body ++ Z)).length + 2 =
      (('/' :: '*' :: (body ++ Z)).length + 1) + 1 from rfl]
    rw [streamP_succ, hscan]
    dsimp only
    rw [show ('/' :: '*' :: (body ++ Z)).drop (2 + body.length) = Z from by
      rw [show 2 + body.length = body.length + 1 + 1 from by omega]
      rw [List.drop_succ_cons, List.drop_succ_cons, List.drop_left]]
    rw [List.filter_cons]
    rw [show (!sigIsComment (Except.ok TokenType.Comment)) = false from rfl]
    simp only [Bool.false_eq_true, if_false]
    rw [streamP_congr (('/' :: '*' :: (body ++ Z)).length + 1) (Z.length + 2) Z false
      (by show Z.length + 1 < ('/' :: '*' :: (body ++ Z)).length + 1
          simp only [List.length_cons, List.length_append]
          omega)
      (by show Z.length + 1 < Z.length + 2
          omega)]
  · subst hC
    rcases body with _ | ⟨b0, body'⟩
    · have hd : dispatchP '/' ('/' :: '\n' :: Z) = (.ok .Comment, 1) := by
        rw [dispatchP_lineComment,
          if_pos (show ('\n' :: Z).head? = some '\n' ∨ '\n' :: Z = [] from Or.inl rfl)]
      have hscan : scanP ('/' :: '/' :: '\n' :: Z) false =
          (some (.ok .Comment), 2, false) := by
        unfold scanP scanCoreP
        dsimp only
        rw [show countWhile is_whitespace ('/' :: '/' :: '\n' :: Z) = 0 from rfl]
        rw [show ('/' :: '/' :: '\n' :: Z).drop 0 = '/' :: '/' :: '\n' :: Z from rfl]
        dsimp only
        rw [hd]
        refine Prod.ext rfl (Prod.ext ?_ rfl)
        dsimp only
      have hCZ : ('/' :: '/' :: [] ++ ['\n']) ++ Z = '/' :: '/' :: '\n' :: Z := rfl
      rw [hCZ]
      unfold filteredP
      rw [show ('/' :: '/' :: '\n' :: Z).length + 2 =
        (('/' :: '/' :: '\n' :: Z).length + 1) + 1 from rfl]
      rw [streamP_succ, hscan]
      dsimp only
      rw [show ('/' :: '/' :: '\n' :: Z).drop 2 = '\n' :: Z from rfl]
      rw [List.filter_cons]
      rw [show (!sigIsComment (Except.ok TokenType.Comment)) = false from rfl]
      simp only [Bool.false_eq_true, if_false]
      rw [streamP_congr (('/' :: '/' :: '\n' :: Z).length + 1)
        (('\n' :: Z).length + 2) ('\n' :: Z) false
        (by show ('\n' :: Z).length + 1 < ('/' :: '/' :: '\n' :: Z).length + 1
            simp only [List.length_cons]
            omega)
        (by show ('\n' :: Z).length + 1 < ('\n' :: Z).length + 2
            omega)]
      exact filteredP_ws '\n' Z false (by decide)
    · have hb0 : b0 ≠ '\n' := fun h => hnl (by rw [h]; exact List.mem_cons_self _ _)
      have ha : ∀ x ∈ b0 :: body', (x != '\n') = true := by
        intro x hx
        simp only [bne_iff_ne, ne_eq]
        intro hh
        exact hnl (hh ▸ hx)
      have hcount : countWhile (fun ch => ch != '\n') ((b0 :: body') ++ '\n' :: Z) =
          (b0 :: body').length :=
        countWhile_append_stop _ _ '\n' Z ha (by decide)
      have hd : dispatchP '/' ('/' :: ((b0 :: body') ++ '\n' :: Z)) =
          (.ok .Comment, (b0 :: body').length + 2) := by
        rw [show ('/' :: ((b0 :: body') ++ '\n' :: Z)) =
          ('/' :: (b0 :: (body' ++ '\n' :: Z))) from rfl]
        rw [dispatchP_lineComment]
        rw [if_neg (by
          intro h
          rcases h with h | h
          · simp only [List.head?_cons, Option.some.injEq] at h
            exact hb0 h
          · cases h)]
        rw [show (b0 :: (body' ++ '\n' :: Z)) = ((b0 :: body') ++ '\n' :: Z) from rfl,
          hcount]
        rw [if_pos (by
          simp only [List.length_append, List.length_cons]
          omega)]
        refine Prod.ext rfl ?_
        dsimp only
        omega
      have hscan : scanP ('/' :: '/' :: ((b0 :: body') ++ '\n' :: Z)) false =
          (some (.ok .Comment), (b0 :: body').length + 3, false) := by
        unfold scanP scanCoreP
        dsimp only
        rw [show countWhile is_whitespace ('/' :: '/' :: ((b0 :: body') ++ '\n' :: Z))
          = 0 from rfl]
        rw [show ('/' :: '/' :: ((b0 :: body') ++ '\n' :: Z)).drop 0
          = '/' :: '/' :: ((b0 :: body') ++ '\n' :: Z) from rfl]
        dsimp only
        rw [hd]
        refine Prod.ext rfl (Prod.ext ?_ rfl)
        dsimp only
        omega
      have hCZ : ('/' :: '/' :: (b0 :: body') ++ ['\n']) ++ Z =
          '/' :: '/' :: ((b0 :: body') ++ '\n' :: Z) := by
        simp
      rw [hCZ]
      unfold filteredP
      rw [show ('/' :: '/' :: ((b0 :: body') ++ '\n' :: Z)).length + 2 =
        (('/' :: '/' :: ((b0 :: body') ++ '\n' :: Z)).length + 1) + 1 from rfl]
      rw [streamP_succ, hscan]
      dsimp only
      rw [show ('/' :: '/' :: ((b0 :: body') ++ '\n' :: Z)).drop
          ((b0 :: body').length + 3) = Z from by
        rw [show (b0 :: body').length + 3 = (b0 :: body').length + 1 + 1 + 1 from by omega]
        rw [List.drop_succ_cons, List.drop_succ_cons]
        rw [show (b0 :: body').length + 1 = (b0 :: body').length + 1 from rfl]
        rw [show ((b0 :: body') ++ '\n' :: Z).drop ((b0 :: body').length + 1) =
          ('\n' :: Z).drop 1 from by
            rw [← List.drop_drop, List.drop_left]]
        rfl]
      rw [List.filter_cons]
      rw [show (!sigIsComment (Except.ok TokenType.Comment)) = false from rfl]
      simp only [Bool.false_eq_true, if_false]
      rw [streamP_congr (('/' :: '/' :: ((b0 :: body') ++ '\n' :: Z)).length + 1)
        (Z.length + 2) Z false
        (by show Z.length + 1 < ('/' :: '/' :: ((b0 :: body') ++ '\n' :: Z)).length + 1
            simp only [List.length_cons, List.length_append]
            omega)
        (by show Z.length + 1 < Z.length + 2
            omega)]

theorem countWhile_insert (p : Char → Bool) (a z : List Char) (w0 : Char)
    (w2 : List Char) (h : countWhile p (a ++ z) ≤ a.length) (hw : p w0 = false) :
    countWhile p (a ++ (w0 :: w2)) = countWhile p (a ++ z) := by
  rcases lt_or_eq_of_le h with h1 | h1
  · exact countWhile_lt_prefix p a z _ h1
  · exact countWhile_eq_prefix p a z _ h1 w0 w2 rfl hw

def numLen (l : List Char) : Nat :=
  if ((l.drop (countWhile is_numeric l)).head? = some '.') ∧
      (((l.drop (countWhile is_numeric l + 1)).head?.map is_numeric).getD false
        = true) then
    countWhile is_numeric l + 1 +
      countWhile is_numeric (l.drop (countWhile is_numeric l + 1))
  else countWhile is_numeric l

theorem dispatchP_num (c : Char) (l : List Char) (hnd : c ∉ dispatchChars)
    (hnum : is_numeric c = true) :
    dispatchP c l =
      (.ok (.Number (decimalValue (c :: l.take (numLen l)))), numLen l) := by
  rw [dispatchP_wildcard c l hnd, if_pos hnum]
  unfold numLen
  cases hdz : l.drop (countWhile is_numeric l) with
  | nil =>
    rw [if_neg (by intro hcc; rw [List.head?_nil] at hcc; cases hcc.1)]
  | cons d rest =>
    have ht : l.drop (countWhile is_numeric l + 1) = rest := by
      rw [← List.tail_drop, hdz, List.tail_cons]
    rw [ht]
    by_cases hd : d = '.'
    · subst hd
      by_cases hf : ((rest.head?.map is_numeric).getD false) = true
      · rw [if_pos ⟨rfl, hf⟩]
        split
        · rename_i rest2 heq
          injection heq with e1 e2
          subst e2
          rw [if_pos hf]
        · rename_i hexc
          exact (hexc rest rfl).elim
      · rw [if_neg (fun hcc => hf hcc.2)]
        split
        · rename_i rest2 heq
          injection heq with e1 e2
          subst e2
          rw [if_neg hf]
        · rename_i hexc
          exact (hexc rest rfl).elim
    · rw [if_neg (by
        intro hcc
        apply hd
        have := hcc.1
        simp only [List.head?_cons, Option.some.injEq] at this
        exact this)]
      split
      · rename_i rest2 heq
        injection heq with e1 e2
        exact absurd e1 hd
      · rfl

theorem dispatchP_alpha (c : Char) (l : List Char) (hnd : c ∉ dispatchChars)
    (hnum : is_numeric c = false) (halpha : is_alphabetic c = true) :
    dispatchP c l =
      (match Keyword.from_str
          (c :: l.take (countWhile (fun c2 => is_alphanumeric c2 || c2 == '_') l)) with
       | some kw => (.ok (.Keyword kw),
           countWhile (fun c2 => is_alphanumeric c2 || c2 == '_') l)
       | none => (.ok (.Identifier
           (c :: l.take (countWhile (fun c2 => is_alphanumeric c2 || c2 == '_') l))),
           countWhile (fun c2 => is_alphanumeric c2 || c2 == '_') l)) := by
  rw [dispatchP_wildcard c l hnd, if_neg (by rw [hnum]; simp), if_pos halpha]

theorem numLen_insert (A Z W2 : List Char) (hZ : Z ≠ [])
    (hm : numLen (A ++ Z) ≤ A.length) :
    numLen (A ++ '/' :: W2) = numLen (A ++ Z) := by
  have hn1 : countWhile is_numeric (A ++ Z) ≤ A.length := by
    unfold numLen at hm
    split_ifs at hm <;> omega
  have hn1W : countWhile is_numeric (A ++ '/' :: W2) = countWhile is_numeric (A ++ Z) :=
    countWhile_insert _ A Z '/' W2 hn1 (by decide)
  unfold numLen
  rw [hn1W]
  rcases Nat.lt_or_ge (countWhile is_numeric (A ++ Z)) A.length with hlt | hge
  · rcases hA : A.drop (countWhile is_numeric (A ++ Z)) with _ | ⟨d, restA⟩
    · exfalso
      have := List.drop_eq_nil_iff.mp hA
      omega
    have hdzZ : (A ++ Z).drop (countWhile is_numeric (A ++ Z)) = d :: (restA ++ Z) := by
      rw [List.drop_append_of_le_length (by omega), hA]
      rfl
    have hdzW : (A ++ '/' :: W2).drop (countWhile is_numeric (A ++ Z)) =
        d :: (restA ++ '/' :: W2) := by
      rw [List.drop_append_of_le_length (by omega), hA]
      rfl
    have hAlen : A.length = countWhile is_numeric (A ++ Z) + restA.length + 1 := by
      have h1 := congrArg List.length hA
      simp only [List.length_drop, List.length_cons] at h1
      omega
    have htZ : (A ++ Z).drop (countWhile is_numeric (A ++ Z) + 1) = restA ++ Z := by
      rw [← List.tail_drop, hdzZ, List.tail_cons]
    have htW : (A ++ '/' :: W2).drop (countWhile is_numeric (A ++ Z) + 1) =
        restA ++ '/' :: W2 := by
      rw [← List.tail_drop, hdzW, List.tail_cons]
    rw [hdzZ, hdzW, htZ, htW]
    by_cases hd : d = '.'
    · subst hd
      rcases restA with _ | ⟨e, restA2⟩
      · simp only [List.nil_append]
        by_cases hfZ : ((Z.head?.map is_numeric).getD false) = true
        · exfalso
          unfold numLen at hm
          rw [if_pos ⟨by rw [hdzZ]; rfl, by rw [htZ]; simpa using hfZ⟩] at hm
          rw [htZ] at hm
          simp only [List.nil_append] at hm
          rcases Z with _ | ⟨z, Z2⟩
          · exact hZ rfl
          have hz : is_numeric z = true := by
            simpa using hfZ
          have hcw : countWhile is_numeric (z :: Z2) =
              countWhile is_numeric Z2 + 1 := by
            rw [show countWhile is_numeric (z :: Z2) =
              if is_numeric z = true then countWhile is_numeric Z2 + 1 else 0 from rfl,
              if_pos hz]
          simp only [List.length_nil] at hAlen
          omega
        · rw [if_neg (show ¬((('.' :: '/' :: W2).head? = some '.') ∧
              ((('/' :: W2).head?.map is_numeric).getD false = true)) from
              fun hcc => by
                have h2 := hcc.2
                simp only [List.head?_cons, Option.map_some', Option.getD_some] at h2
                exact absurd h2 (by decide)),
            if_neg (fun hcc => hfZ hcc.2)]
      · by_cases hf : is_numeric e = true
        · have hcZ : (((e :: restA2 ++ Z).head?.map is_numeric).getD false) = true := by
            simpa using hf
          have hcW : (((e :: restA2 ++ '/' :: W2).head?.map is_numeric).getD false)
              = true := by
            simpa using hf
          rw [if_pos ⟨rfl, hcW⟩, if_pos ⟨rfl, hcZ⟩]
          have hmn2 : countWhile is_numeric ((e :: restA2) ++ Z) ≤
              (e :: restA2).length := by
            unfold numLen at hm
            rw [if_pos ⟨by rw [hdzZ]; rfl, by rw [htZ]; exact hcZ⟩, htZ] at hm
            simp only [List.length_cons] at hAlen ⊢
            omega
          have := countWhile_insert is_numeric (e :: restA2) Z '/' W2 hmn2 (by decide)
          rw [show (e :: restA2) ++ ('/' :: W2) = e :: restA2 ++ '/' :: W2 from rfl,
            show (e :: restA2) ++ Z = e :: restA2 ++ Z from rfl] at this
          rw [this]
        · have hcZ : ¬((((e :: restA2 ++ Z).head?.map is_numeric).getD false) = true) := by
            simpa using hf
          have hcW : ¬((((e :: restA2 ++ '/' :: W2).head?.map is_numeric).getD false)
              = true) := by
            simpa using hf
          rw [if_neg (fun hcc => hcW hcc.2), if_neg (fun hcc => hcZ hcc.2)]
    · rw [if_neg (fun hcc => hd (by
        have h1 := hcc.1
        simp only [List.head?_cons, Option.some.injEq] at h1
        exact h1)),
        if_neg (fun hcc => hd (by
        have h1 := hcc.1
        simp only [List.head?_cons, Option.some.injEq] at h1
        exact h1))]
  · have he : countWhile is_numeric (A ++ Z) = A.length := le_antisymm hn1 hge
    have hdzW : (A ++ '/' :: W2).drop (countWhile is_numeric (A ++ Z)) = '/' :: W2 := by
      rw [he, List.drop_left]
    rw [hdzW]
    rw [if_neg (by
      intro hcc
      have h1 := hcc.1
      simp only [List.head?_cons, Option.some.injEq] at h1
      exact absurd h1 (by decide))]
    by_cases hcz : (((A ++ Z).drop (countWhile is_numeric (A ++ Z))).head? = some '.') ∧
        ((((A ++ Z).drop (countWhile is_numeric (A ++ Z) + 1)).head?.map
          is_numeric).getD false = true)
    · exfalso
      unfold numLen at hm
      rw [if_pos hcz] at hm
      omega
    · rw [if_neg hcz]

theorem dispatchP_insert (c : Char) (A Z W : List Char)
    (hm : (dispatchP c (A ++ Z)).2 ≤ A.length)
    (hZ : Z ≠ [])
    (hW : W.head? = some '/')
    (hlast : (dispatchP c (A ++ Z)).2 = A.length → (c :: A).getLast? ≠ some '/') :
    dispatchP c (A ++ W) = dispatchP c (A ++ Z) := by
  rcases W with _ | ⟨w0, W2⟩
  · cases hW
  have hw0 : w0 = '/' := by
    simp only [List.head?_cons, Option.some.injEq] at hW
    exact hW
  subst hw0
  rcases eq_or_ne c '(' with h | hne1
  · subst h; rfl
  rcases eq_or_ne c ')' with h | hne2
  · subst h; rfl
  rcases eq_or_ne c '{' with h | hne3
  · subst h; rfl
  rcases eq_or_ne c '}' with h | hne4
  · subst h; rfl
  rcases eq_or_ne c ',' with h | hne5
  · subst h; rfl
  rcases eq_or_ne c ';' with h | hne6
  · subst h; rfl
  rcases eq_or_ne c '.' with h | hne7
  · subst h; rfl
  rcases eq_or_ne c '-' with h | hne8
  · subst h; rfl
  rcases eq_or_ne c '+' with h | hne9
  · subst h; rfl
  rcases eq_or_ne c '*' with h | hne10
  · subst h; rfl
  rcases eq_or_ne c '/' with h | hne11
  · subst h
    cases A with
    | nil =>
      have h0 : (dispatchP '/' ([] ++ Z)).2 = ([] : List Char).length := by
        simp only [List.nil_append, List.length_nil] at hm ⊢
        omega
      exact absurd (show (('/' : Char) :: ([] : List Char)).getLast? = some '/' from rfl)
        (hlast h0)
    | cons a A2 =>
      rw [show (a :: A2) ++ ('/' :: W2) = a :: (A2 ++ '/' :: W2) from rfl,
        show (a :: A2) ++ Z = a :: (A2 ++ Z) from rfl]
      rcases eq_or_ne a '/' with ha | ha
      · subst ha
        rw [dispatchP_lineComment, dispatchP_lineComment]
        rw [show ('/' :: A2) ++ Z = '/' :: (A2 ++ Z) from rfl,
          dispatchP_lineComment] at hm
        cases A2 with
        | nil =>
          simp only [List.nil_append] at hm ⊢
          rcases Z with _ | ⟨z, Z2⟩
          · exact absurd rfl hZ
          by_cases hz : z = '\n'
          · subst hz
            have h0 : (dispatchP '/' (('/' :: []) ++ ('\n' :: Z2))).2 =
                ('/' :: ([] : List Char)).length := by
              rw [show ('/' :: ([] : List Char)) ++ ('\n' :: Z2) =
                '/' :: '\n' :: Z2 from rfl, dispatchP_lineComment,
                if_pos (show ('\n' :: Z2).head? = some '\n' ∨ '\n' :: Z2 = []
                  from Or.inl rfl)]
              rfl
            exact absurd (show (('/' : Char) :: '/' :: ([] : List Char)).getLast? =
              some '/' from rfl) (hlast h0)
          · rw [if_neg (by
              intro hcond
              rcases hcond with hcond | hcond
              · simp only [List.head?_cons, Option.some.injEq] at hcond
                exact hz hcond
              · cases hcond)] at hm
            dsimp only at hm
            have hcw : countWhile (fun ch => ch != '\n') (z :: Z2) =
                countWhile (fun ch => ch != '\n') Z2 + 1 := by
              rw [show countWhile (fun ch => ch != '\n') (z :: Z2) =
                if (z != '\n') = true then countWhile (fun ch => ch != '\n') Z2 + 1
                else 0 from rfl, if_pos (by simpa using hz)]
            simp only [List.length_cons, List.length_nil] at hm
            split_ifs at hm <;> omega
        | cons b A3 =>
          by_cases hb : b = '\n'
          · subst hb
            rw [if_pos (show (('\n' :: A3) ++ ('/' :: W2)).head? = some '\n' ∨
                ('\n' :: A3) ++ ('/' :: W2) = [] from Or.inl rfl),
              if_pos (show (('\n' :: A3) ++ Z).head? = some '\n' ∨
                ('\n' :: A3) ++ Z = [] from Or.inl rfl)]
          · have hifZ : ¬((( b :: A3) ++ Z).head? = some '\n' ∨ (b :: A3) ++ Z = []) := by
              intro hcond
              rcases hcond with hcond | hcond
              · rw [show ((b :: A3) ++ Z).head? = some b from rfl] at hcond
                simp only [Option.some.injEq] at hcond
                exact hb hcond
              · rw [show (b :: A3) ++ Z = b :: (A3 ++ Z) from rfl] at hcond
                cases hcond
            have hifW : ¬(((b :: A3) ++ ('/' :: W2)).head? = some '\n' ∨
                (b :: A3) ++ ('/' :: W2) = []) := by
              intro hcond
              rcases hcond with hcond | hcond
              · rw [show ((b :: A3) ++ ('/' :: W2)).head? = some b from rfl] at hcond
                simp only [Option.some.injEq] at hcond
                exact hb hcond
              · rw [show (b :: A3) ++ ('/' :: W2) = b :: (A3 ++ '/' :: W2) from rfl]
                  at hcond
                cases hcond
            rw [if_neg hifW, if_neg hifZ]
            rw [if_neg hifZ] at hm
            dsimp only at hm
            have hZlen : 0 < Z.length := List.length_pos.mpr hZ
            have htZ : ((b :: A3) ++ Z).length = A3.length + 1 + Z.length := by
              simp only [List.length_append, List.length_cons]
            split_ifs at hm with hit
            · -- the newline stop is inside the prefix
              simp only [List.length_cons] at hm
              have hlt : countWhile (fun ch => ch != '\n') ((b :: A3) ++ Z) <
                  (b :: A3).length := by
                simp only [List.length_cons]
                omega
              have hcwW := countWhile_lt_prefix (fun ch => ch != '\n') (b :: A3) Z
                ('/' :: W2) hlt
              rw [hcwW]
              rw [if_pos (show countWhile (fun ch => ch != '\n') ((b :: A3) ++ Z) <
                  ((b :: A3) ++ ('/' :: W2)).length from by
                have hlt2 : countWhile (fun ch => ch != '\n') ((b :: A3) ++ Z) <
                    A3.length + 1 := by simpa only [List.length_cons] using hlt
                simp only [List.length_append, List.length_cons]
                omega), if_pos hit]
            · exfalso
              have hcwle := countWhile_le (fun ch => ch != '\n') ((b :: A3) ++ Z)
              rw [htZ] at hcwle
              push_neg at hit
              rw [htZ] at hit
              simp only [List.length_cons] at hm
              omega
      · rcases eq_or_ne a '*' with ha2 | ha2
        · subst ha2
          rw [dispatchP_blockComment, dispatchP_blockComment]
          rw [show ('*' :: A2) ++ Z = '*' :: (A2 ++ Z) from rfl,
            dispatchP_blockComment] at hm
          by_cases hbz : (bcSteps 1 (A2 ++ Z)).2 = 0
          · have hmv : (bcSteps 1 (A2 ++ Z)).1 ≤ A2.length := by
              rcases Nat.lt_or_ge 0 ((bcSteps 1 (A2 ++ Z)).2) with hp | hp
              · omega
              · split_ifs at hm with hcond
                · dsimp only at hm
                  simp only [List.length_cons] at hm
                  omega
                · dsimp only at hm
                  simp only [List.length_cons] at hm
                  omega
            have hbW : bcSteps 1 (A2 ++ ('/' :: W2)) = ((bcSteps 1 (A2 ++ Z)).1, 0) :=
              bcSteps_prefix 1 A2 (by omega) Z ('/' :: W2) _
                (Prod.ext rfl hbz) hmv
            rw [hbW]
            rw [show bcSteps 1 (A2 ++ Z) = ((bcSteps 1 (A2 ++ Z)).1, 0) from
              Prod.ext rfl hbz]
          · exfalso
            have hex := (bcSteps_le 1 (A2 ++ Z)).2 hbz
            have hZlen : 0 < Z.length := List.length_pos.mpr hZ
            simp only [List.length_append] at hex
            split_ifs at hm <;>
              (dsimp only at hm
               simp only [List.length_cons] at hm
               omega)
        · rw [dispatchP_slash_cons a _ ha ha2, dispatchP_slash_cons a _ ha ha2]
  rcases eq_or_ne c '!' with h | hne12
  · subst h
    cases A with
    | nil =>
      simp only [List.nil_append] at hm ⊢
      rcases Z with _ | ⟨z, Z2⟩
      · exact absurd rfl hZ
      by_cases hz : z = '='
      · subst hz
        rw [show (dispatchP '!' ('=' :: Z2)).2 = 1 from rfl] at hm
        simp at hm
      · rw [dispatchP_bang_cons z Z2 hz, dispatchP_bang_cons '/' W2 (by decide)]
    | cons a A2 =>
      rw [show (a :: A2) ++ ('/' :: W2) = a :: (A2 ++ '/' :: W2) from rfl,
        show (a :: A2) ++ Z = a :: (A2 ++ Z) from rfl]
      by_cases ha : a = '='
      · subst ha; rfl
      · rw [dispatchP_bang_cons a _ ha, dispatchP_bang_cons a _ ha]
  rcases eq_or_ne c '=' with h | hne13
  · subst h
    cases A with
    | nil =>
      simp only [List.nil_append] at hm ⊢
      rcases Z with _ | ⟨z, Z2⟩
      · exact absurd rfl hZ
      by_cases hz : z = '='
      · subst hz
        rw [show (dispatchP '=' ('=' :: Z2)).2 = 1 from rfl] at hm
        simp at hm
      · rw [dispatchP_equal_cons z Z2 hz, dispatchP_equal_cons '/' W2 (by decide)]
    | cons a A2 =>
      rw [show (a :: A2) ++ ('/' :: W2) = a :: (A2 ++ '/' :: W2) from rfl,
        show (a :: A2) ++ Z = a :: (A2 ++ Z) from rfl]
      by_cases ha : a = '='
      · subst ha; rfl
      · rw [dispatchP_equal_cons a _ ha, dispatchP_equal_cons a _ ha]
  rcases eq_or_ne c '>' with h | hne14
  · subst h
    cases A with
    | nil =>
      simp only [List.nil_append] at hm ⊢
      rcases Z with _ | ⟨z, Z2⟩
      · exact absurd rfl hZ
      by_cases hz : z = '='
      · subst hz
        rw [show (dispatchP '>' ('=' :: Z2)).2 = 1 from rfl] at hm
        simp at hm
      · rw [dispatchP_greater_cons z Z2 hz, dispatchP_greater_cons '/' W2 (by decide)]
    | cons a A2 =>
      rw [show (a :: A2) ++ ('/' :: W2) = a :: (A2 ++ '/' :: W2) from rfl,
        show (a :: A2) ++ Z = a :: (A2 ++ Z) from rfl]
      by_cases ha : a = '='
      · subst ha; rfl
      · rw [dispatchP_greater_cons a _ ha, dispatchP_greater_cons a _ ha]
  rcases eq_or_ne c '<' with h | hne15
  · subst h
    cases A with
    | nil =>
      simp only [List.nil_append] at hm ⊢
      rcases Z with _ | ⟨z, Z2⟩
      · exact absurd rfl hZ
      by_cases hz : z = '='
      · subst hz
        rw [show (dispatchP '<' ('=' :: Z2)).2 = 1 from rfl] at hm
        simp at hm
      · rw [dispatchP_less_cons z Z2 hz, dispatchP_less_cons '/' W2 (by decide)]
    | cons a A2 =>
      rw [show (a :: A2) ++ ('/' :: W2) = a :: (A2 ++ '/' :: W2) from rfl,
        show (a :: A2) ++ Z = a :: (A2 ++ Z) from rfl]
      by_cases ha : a = '='
      · subst ha; rfl
      · rw [dispatchP_less_cons a _ ha, dispatchP_less_cons a _ ha]
  rcases eq_or_ne c '"' with h | hne16
  · subst h
    rw [dispatchP_string] at hm
    rw [dispatchP_string, dispatchP_string]
    cases hdz : (A ++ Z).drop (countWhile (fun ch => ch != '"') (A ++ Z)) with
    | nil =>
      exfalso
      have hlen : (A ++ Z).length ≤ countWhile (fun ch => ch != '"') (A ++ Z) :=
        List.drop_eq_nil_iff.mp hdz
      rw [hdz] at hm
      dsimp only at hm
      simp only [List.length_append] at hlen
      have hzlen : 0 < Z.length := List.length_pos.mpr hZ
      omega
    | cons d rest =>
      rw [hdz] at hm
      dsimp only at hm
      have hnW : countWhile (fun ch => ch != '"') (A ++ '/' :: W2) =
          countWhile (fun ch => ch != '"') (A ++ Z) :=
        countWhile_lt_prefix _ A Z _ (by omega)
      rw [hnW]
      rcases hAdrop : A.drop (countWhile (fun ch => ch != '"') (A ++ Z)) with _ | ⟨d2, rest2⟩
      · exfalso
        have := List.drop_eq_nil_iff.mp hAdrop
        omega
      rw [show (A ++ '/' :: W2).drop (countWhile (fun ch => ch != '"') (A ++ Z)) =
        A.drop (countWhile (fun ch => ch != '"') (A ++ Z)) ++ '/' :: W2 from
          List.drop_append_of_le_length (by omega), hAdrop]
      dsimp only
      rw [List.take_append_of_le_length (by omega),
        List.take_append_of_le_length (by omega)]
      rfl
  have hnd : c ∉ dispatchChars := by
    intro hmem
    simp only [dispatchChars, List.mem_cons, List.not_mem_nil, or_false] at hmem
    rcases hmem with h|h|h|h|h|h|h|h|h|h|h|h|h|h|h|h
    exacts [hne1 h, hne2 h, hne3 h, hne4 h, hne5 h, hne6 h, hne7 h, hne8 h,
      hne9 h, hne10 h, hne11 h, hne12 h, hne13 h, hne14 h, hne15 h, hne16 h]
  by_cases hnum : is_numeric c = true
  · rw [dispatchP_num c (A ++ ('/' :: W2)) hnd hnum, dispatchP_num c (A ++ Z) hnd hnum]
    rw [dispatchP_num c (A ++ Z) hnd hnum] at hm
    dsimp only at hm
    have hnl := numLen_insert A Z W2 hZ hm
    rw [hnl, List.take_append_of_le_length hm, List.take_append_of_le_length hm]
  · by_cases halpha : is_alphabetic c = true
    · have hnum2 : is_numeric c = false := by simpa using hnum
      rw [dispatchP_alpha c (A ++ ('/' :: W2)) hnd hnum2 halpha,
        dispatchP_alpha c (A ++ Z) hnd hnum2 halpha]
      rw [dispatchP_alpha c (A ++ Z) hnd hnum2 halpha] at hm
      have hmn : countWhile (fun c2 => is_alphanumeric c2 || c2 == '_') (A ++ Z) ≤
          A.length := by
        cases hfs : Keyword.from_str (c :: (A ++ Z).take
            (countWhile (fun c2 => is_alphanumeric c2 || c2 == '_') (A ++ Z))) <;>
          (rw [hfs] at hm; dsimp only at hm; exact hm)
      have hcw := countWhile_insert (fun c2 => is_alphanumeric c2 || c2 == '_')
        A Z '/' W2 hmn (by decide)
      rw [hcw, List.take_append_of_le_length hmn, List.take_append_of_le_length hmn]
    · rw [dispatchP_wildcard c (A ++ ('/' :: W2)) hnd, dispatchP_wildcard c (A ++ Z) hnd,
        if_neg hnum, if_neg halpha, if_neg hnum, if_neg halpha]

theorem scanP_insert (A Z W2 : List Char) (e : Bool)
    (hn : (scanP (A ++ Z) e).2.1 ≤ A.length)
    (hZ : Z ≠ [])
    (hlast : (scanP (A ++ Z) e).2.1 = A.length → A.getLast? ≠ some '/') :
    scanP (A ++ '/' :: W2) e = scanP (A ++ Z) e := by
  have hn2 : countWhile is_whitespace (A ++ Z) +
      (scanCoreP ((A ++ Z).drop (countWhile is_whitespace (A ++ Z))) e).2.1 ≤
        A.length := hn
  have hw : countWhile is_whitespace (A ++ Z) ≤ A.length := by omega
  cases hd : (A ++ Z).drop (countWhile is_whitespace (A ++ Z)) with
  | nil =>
    exfalso
    have hlen := List.drop_eq_nil_iff.mp hd
    simp only [List.length_append] at hlen
    have : 0 < Z.length := List.length_pos.mpr hZ
    have hcwle := countWhile_le is_whitespace (A ++ Z)
    simp only [List.length_append] at hcwle
    omega
  | cons c2 D =>
    rw [hd, show scanCoreP (c2 :: D) e =
      (some (dispatchP c2 D).1, 1 + (dispatchP c2 D).2, e) from rfl] at hn2
    dsimp only at hn2
    have hwlt : countWhile is_whitespace (A ++ Z) < A.length := by omega
    rcases hA : A.drop (countWhile is_whitespace (A ++ Z)) with _ | ⟨c3, A2⟩
    · exfalso
      have := List.drop_eq_nil_iff.mp hA
      omega
    have hdz : (A ++ Z).drop (countWhile is_whitespace (A ++ Z)) = c3 :: (A2 ++ Z) := by
      rw [List.drop_append_of_le_length (by omega), hA]
      rfl
    rw [hd] at hdz
    injection hdz with hc3 hD
    subst hc3
    subst hD
    have hA2len : A.length = countWhile is_whitespace (A ++ Z) + A2.length + 1 := by
      have h1 := congrArg List.length hA
      simp only [List.length_drop, List.length_cons] at h1
      omega
    have hcwW : countWhile is_whitespace (A ++ '/' :: W2) =
        countWhile is_whitespace (A ++ Z) :=
      countWhile_lt_prefix is_whitespace A Z ('/' :: W2) hwlt
    have hdW : (A ++ '/' :: W2).drop (countWhile is_whitespace (A ++ Z)) =
        c2 :: (A2 ++ '/' :: W2) := by
      rw [List.drop_append_of_le_length (by omega), hA]
      rfl
    have hdisp := dispatchP_insert c2 A2 Z ('/' :: W2)
      (by omega) hZ rfl
      (by
        intro hmeq
        have hne : A.getLast? ≠ some '/' := by
          apply hlast
          show countWhile is_whitespace (A ++ Z) +
            (scanCoreP ((A ++ Z).drop (countWhile is_whitespace (A ++ Z))) e).2.1 =
              A.length
          rw [hd, show scanCoreP (c2 :: (A2 ++ Z)) e =
            (some (dispatchP c2 (A2 ++ Z)).1, 1 + (dispatchP c2 (A2 ++ Z)).2, e)
            from rfl]
          dsimp only
          omega
        intro hlc
        apply hne
        rw [show A = A.take (countWhile is_whitespace (A ++ Z)) ++
          A.drop (countWhile is_whitespace (A ++ Z)) from
            (List.take_append_drop _ A).symm]
        rw [List.getLast?_append_of_ne_nil _ (by rw [hA]; simp), hA]
        exact hlc)
    unfold scanP scanCoreP
    dsimp only
    rw [hcwW, hdW, hd]
    dsimp only
    rw [hdisp]

theorem filteredP_step (s1 s2 : List Char)
    (hsc : scanP s1 false = scanP s2 false)
    (htail : filteredP (s1.drop (scanP s2 false).2.1) (scanP s2 false).2.2 =
      filteredP (s2.drop (scanP s2 false).2.1) (scanP s2 false).2.2) :
    filteredP s1 false = filteredP s2 false := by
  unfold filteredP
  rw [show s1.length + 2 = (s1.length + 1) + 1 from rfl,
    show s2.length + 2 = (s2.length + 1) + 1 from rfl,
    streamP_succ, streamP_succ, hsc]
  cases ho : scanP s2 false with
  | mk o r2 =>
    cases r2 with
    | mk m e2 =>
      rw [ho] at htail
      dsimp only at htail
      cases o with
      | none => rfl
      | some rr =>
        dsimp only
        rw [List.filter_cons, List.filter_cons]
        unfold filteredP at htail
        have hs1 : streamP (s1.length + 1) (s1.drop m) e2 =
            streamP ((s1.drop m).length + 2) (s1.drop m) e2 := by
          cases e2 with
          | true =>
            refine streamP_congr _ _ _ _ ?_ ?_ <;>
              (show (s1.drop m).length + 0 < _
               simp only [List.length_drop]
               omega)
          | false =>
            have hm : 0 < m := by
              have := scanP_consumed_pos s2 false
              rw [ho] at this
              exact this rfl
            have hs1ne : 0 < s1.length := by
              rcases s1 with _ | ⟨c1, t1⟩
              · rw [show scanP [] false = (some (.ok .Eof), 0, true) from rfl] at hsc
                rw [ho] at hsc
                injection hsc with a b
                injection b with b1 b2
                cases b2
              · simp
            refine streamP_congr _ _ _ _ ?_ ?_ <;>
              (show (s1.drop m).length + 1 < _
               simp only [List.length_drop]
               omega)
        have hs2 : streamP (s2.length + 1) (s2.drop m) e2 =
            streamP ((s2.drop m).length + 2) (s2.drop m) e2 := by
          cases e2 with
          | true =>
            refine streamP_congr _ _ _ _ ?_ ?_ <;>
              (show (s2.drop m).length + 0 < _
               simp only [List.length_drop]
               omega)
          | false =>
            have hm : 0 < m := by
              have := scanP_consumed_pos s2 false
              rw [ho] at this
              exact this rfl
            have hs2ne : 0 < s2.length := by
              rcases s2 with _ | ⟨c1, t1⟩
              · rw [show scanP [] false = (some (.ok .Eof), 0, true) from rfl] at ho
                injection ho with a b
                injection b with b1 b2
                cases b2
              · simp
            refine streamP_congr _ _ _ _ ?_ ?_ <;>
              (show (s2.drop m).length + 1 < _
               simp only [List.length_drop]
               omega)
        rw [hs1, hs2, htail]

theorem filteredP_insert :
    ∀ (j : Nat) (s C : List Char) (q : Nat), wfComment C →
      scanIterP j s false = (q, false) →
      q < s.length →
      (q = 0 ∨ s.get? (q - 1) ≠ some '/') →
      filteredP (s.take q ++ C ++ s.drop q) false = filteredP s false := by
  intro j
  induction j with
  | zero =>
    intro s C q hw hit hq hb
    have hq0 : q = 0 := (congrArg Prod.fst hit : (0 : Nat) = q).symm
    subst hq0
    rw [List.take_zero, List.drop_zero, List.nil_append]
    exact filteredP_comment_head C s hw
  | succ j ih =>
    intro s C q hw hit hq hb
    by_cases hq0 : q = 0
    · subst hq0
      rw [List.take_zero, List.drop_zero, List.nil_append]
      exact filteredP_comment_head C s hw
    have hbr : s.get? (q - 1) ≠ some '/' := by
      rcases hb with h | h
      · exact absurd h hq0
      · exact h
    have hit2 : ((scanP s false).2.1 +
        (scanIterP j (s.drop (scanP s false).2.1) (scanP s false).2.2).1,
        (scanIterP j (s.drop (scanP s false).2.1) (scanP s false).2.2).2) =
          (q, false) := hit
    have he2 : (scanP s false).2.2 = false := by
      by_contra hcon
      rw [Bool.not_eq_false] at hcon
      have h2 := congrArg Prod.snd hit2
      dsimp only at h2
      rw [hcon, scanIterP_true] at h2
      cases h2
    rw [he2] at hit2
    have hn_q : (scanP s false).2.1 +
        (scanIterP j (s.drop (scanP s false).2.1) false).1 = q :=
      congrArg Prod.fst hit2
    have hiter2 : (scanIterP j (s.drop (scanP s false).2.1) false).2 = false :=
      congrArg Prod.snd hit2
    set n := (scanP s false).2.1 with hn
    set q2 := (scanIterP j (s.drop n) false).1 with hq2
    obtain ⟨C2, hC2⟩ : ∃ C2, C = '/' :: C2 := by
      rcases hw with ⟨body, hC, _⟩ | ⟨body, hC, _⟩ <;> exact ⟨_, hC⟩
    subst hC2
    have hqtake : (s.take q).length = q := by
      rw [List.length_take]
      omega
    have hZne : s.drop q ≠ [] := by
      intro hnil
      have := List.drop_eq_nil_iff.mp hnil
      omega
    have hlastA : (s.take q).getLast? = s.get? (q - 1) := by
      rw [List.getLast?_eq_get?, hqtake]
      exact List.get?_take (by omega)
    by_cases hq20 : q2 = 0
    · have hqn : n = q := by omega
      apply filteredP_step
      · rw [show s.take q ++ ('/' :: C2) ++ s.drop q =
          s.take q ++ ('/' :: (C2 ++ s.drop q)) from by simp]
        have hins := scanP_insert (s.take q) (s.drop q) (C2 ++ s.drop q) false
          (by
            rw [List.take_append_drop, hqtake, ← hn]
            omega)
          hZne
          (fun _ => by rw [hlastA]; exact hbr)
        rw [List.take_append_drop] at hins
        exact hins
      · rw [he2, ← hn, hqn]
        rw [show (s.take q ++ ('/' :: C2) ++ s.drop q).drop q =
            ('/' :: C2) ++ s.drop q from by
          rw [List.append_assoc,
            List.drop_append_of_le_length (le_of_eq hqtake.symm),
            List.drop_eq_nil_iff.mpr (by omega),
            List.nil_append]]
        exact filteredP_comment_head ('/' :: C2) (s.drop q) hw
    · have hnlt : n < q := by omega
      apply filteredP_step
      · rw [show s.take q ++ ('/' :: C2) ++ s.drop q =
          s.take q ++ ('/' :: (C2 ++ s.drop q)) from by simp]
        have hins := scanP_insert (s.take q) (s.drop q) (C2 ++ s.drop q) false
          (by
            rw [List.take_append_drop, hqtake, ← hn]
            omega)
          hZne
          (by
            rw [List.take_append_drop, hqtake, ← hn]
            intro hmeq
            exact absurd hmeq (by omega))
        rw [List.take_append_drop] at hins
        exact hins
      · rw [he2, ← hn]
        rw [show (s.take q ++ ('/' :: C2) ++ s.drop q).drop n =
            (s.drop n).take (q - n) ++ ('/' :: C2) ++ (s.drop n).drop (q - n) from by
          rw [List.append_assoc,
            List.drop_append_of_le_length (by rw [hqtake]; omega),
            List.drop_take,
            show (s.drop n).drop (q - n) = s.drop q from by
              rw [List.drop_drop]
              congr 1
              omega,
            List.append_assoc]]
        refine ih (s.drop n) ('/' :: C2) (q - n) hw ?_ ?_ ?_
        · exact Prod.ext (by dsimp only; rw [← hq2]; omega) hiter2
        · rw [List.length_drop]
          omega
        · right
          rw [List.get?_drop, show n + (q - n - 1) = q - 1 from by omega]
          exact hbr

/-- C4: the lexer's item stream never contains a `Comment` token, and
the insertion half holds in amended form: for a source and comment made
of single-byte (ASCII) characters — where the character-counted
`current` and the byte offsets it is used as coincide, so the model's
slices are the program's — inserting a well-formed line or balanced
block comment at a scanner-reachable token boundary strictly inside the
input, whose preceding character is not `/`, leaves the sequence of
emitted token signatures (token types and error shapes, ignoring
positions) unchanged; in particular `"1 + /* x */ 2"` yields the same
signature sequence as `"1 + 2"`.  The unrestricted claim is refuted by
`C4_counterexample`; the single-byte restriction is needed because a
multi-byte character inside the inserted comment shifts every later
character index against the byte layout (inserting `"/* é */"` at
boundary 1 of `"x if"` makes the program byte-slice the word `if` as
`" i"`, turning `Keyword(If)` into an identifier). -/
theorem C4_comment_transparency :
    (∀ (s : List Char) (r : Except SyntaxError Token),
        r ∈ lexer s → isCommentItem r = false) ∧
    (∀ (s C : List Char) (j q : Nat),
        (∀ c ∈ s, utf8Len c = 1) → (∀ c ∈ C, utf8Len c = 1) →
        wfComment C →
        scanIterP j s false = (q, false) →
        q < s.length →
        (q = 0 ∨ s.get? (q - 1) ≠ some '/') →
        itemSigs (lexer (s.take q ++ C ++ s.drop q)) = itemSigs (lexer s)) ∧
    itemSigs (lexer "1 + /* x */ 2".toList) = itemSigs (lexer "1 + 2".toList) := by
  refine ⟨?_, ?_, rfl⟩
  · intro s r hr
    have hmem : r ∈ (tokens (init s)).filter (fun r => !isCommentItem r) := by
      rw [lexer, items_eq_filter] at hr
      exact hr
    have := List.of_mem_filter hmem
    simpa using this
  · intro s C j q _ _ hw hit hq hb
    rw [itemSigs_lexer, itemSigs_lexer]
    exact filteredP_insert j s C q hw hit hq hb

/-- Witness: inserting `/* x */` at boundary 3 of `"1 + 2"` (reached after
two scanner pulls; both strings ASCII) preserves the signature stream. -/
theorem C4_comment_transparency_witness :
    itemSigs (lexer ("1 + 2".toList.take 3 ++ "/* x */".toList ++
      "1 + 2".toList.drop 3)) = itemSigs (lexer "1 + 2".toList) :=
  C4_comment_transparency.2.1 "1 + 2".toList "/* x */".toList 2 3
    (by decide) (by decide)
    (Or.inl ⟨" x */".toList, by decide, by decide⟩)
    (by decide) (by decide) (Or.inr (by decide))

end Lexer
